import Mathlib

/-!
# Verification of the attachment-extraction engine of `apple-notes-exporter-rs`

This file gives a shallow embedding, in Lean 4, of the attachment extraction
and HTML rewriting engine of the repository (src/lib.rs, lines 438-643):
`extract_attachments_from_html`, `extract_attachments_from_directory` and
`extract_attachments_recursive`, together with the library calls they make
(`str::replace`, `BASE64_STANDARD.decode`, `format!`, and the
`scraper`-based collection of `img src` attribute values), and proves the
spec's claims about them.

Strings are modelled as `List Char`; machine-level `Vec<u8>` contents are
modelled as `List Nat` (each element < 256); file-system paths are modelled
as lists of path components.  File-system side effects (attachment files
written, the conditional rewrite of the source document) are returned as
explicit data in the result record.
-/

set_option maxRecDepth 20000

/-- Strings of the Rust program, modelled as lists of characters. -/
abbrev Str := List Char

/-- Converts a Lean string literal to the `Str` model. -/
def str (s : String) : Str := s.data

/-- Model of Rust `str::starts_with` on our string model. -/
def startsWith : Str → Str → Bool
  | [], _ => true
  | _ :: _, [] => false
  | p :: ps, c :: cs => p == c && startsWith ps cs

/-- Model of Rust `str::strip_prefix`: `some` of the remainder when the
pattern leads the string, `none` otherwise. -/
def stripLead (pat s : Str) : Option Str :=
  if startsWith pat s then some (List.drop pat.length s) else none

/-- Model of Rust `str::split_once(sep)`: splits at the first occurrence of
the separator character; `none` when the separator does not occur. -/
def splitOnce (sep : Char) : Str → Option (Str × Str)
  | [] => none
  | c :: cs =>
    if c = sep then some ([], cs)
    else (splitOnce sep cs).map (fun p => (c :: p.1, p.2))

/-- Model of Rust `str::ends_with`. -/
def endsWith (pat s : Str) : Bool := startsWith pat.reverse s.reverse

/-- Substring test: `true` iff `pat` occurs contiguously inside `s`. -/
def containsSub (pat : Str) : Str → Bool
  | [] => pat.isEmpty
  | c :: cs => startsWith pat (c :: cs) || containsSub pat cs

/-- Fuel-indexed worker for `replaceAll`.  The fuel only serves to make the
recursion structural (hence kernel-reducible); any fuel of at least the
length of the subject string gives the final answer. -/
def replaceAllF (pat rep : Str) : Nat → Str → Str
  | 0, s => s
  | _ + 1, [] => []
  | f + 1, c :: cs =>
    if !pat.isEmpty && startsWith pat (c :: cs) then
      rep ++ replaceAllF pat rep f (List.drop pat.length (c :: cs))
    else
      c :: replaceAllF pat rep f cs

/-- Model of Rust `str::replace(pat, rep)` (line 564 of src/lib.rs):
replaces every non-overlapping occurrence of `pat`, scanning left to right.
(The empty-pattern case never arises in the program: the pattern is always a
matched data URL, which starts with `data:image/`.) -/
def replaceAll (pat rep s : Str) : Str := replaceAllF pat rep s.length s

/-- The base64 value of one standard-alphabet character, `none` for any
character outside the alphabet (model of the `base64` crate's standard
alphabet table). -/
def b64Val (c : Char) : Option Nat :=
  if 'A' ≤ c ∧ c ≤ 'Z' then some (c.toNat - 65)
  else if 'a' ≤ c ∧ c ≤ 'z' then some (c.toNat - 97 + 26)
  else if '0' ≤ c ∧ c ≤ '9' then some (c.toNat - 48 + 52)
  else if c = '+' then some 62
  else if c = '/' then some 63
  else none

/-- Model of `BASE64_STANDARD.decode` (line 541 of src/lib.rs): canonical
padded standard base64.  Succeeds only on a sequence of full 4-character
groups whose last group may end in `=` or `==`, with all trailing bits
zero (the crate's default strict configuration); returns the decoded bytes. -/
def b64Decode : Str → Option (List Nat)
  | [] => some []
  | a :: b :: c :: d :: rest => do
    let va ← b64Val a
    let vb ← b64Val b
    if d = '=' then
      if rest.isEmpty then
        if c = '=' then
          if vb % 16 = 0 then some [va * 4 + vb / 16] else none
        else do
          let vc ← b64Val c
          if vc % 4 = 0 then some [va * 4 + vb / 16, vb % 16 * 16 + vc / 4]
          else none
      else none
    else do
      let vc ← b64Val c
      let vd ← b64Val d
      let tail ← b64Decode rest
      some ((va * 4 + vb / 16) :: (vb % 16 * 16 + vc / 4) :: (vc % 4 * 64 + vd) :: tail)
  | _ => none

/-- Fuel-indexed decimal-digit worker (fuel ≥ 1 + number suffices). -/
def natDigitsF : Nat → Nat → Str
  | 0, _ => []
  | f + 1, n =>
    if n < 10 then [Nat.digitChar n]
    else natDigitsF f (n / 10) ++ [Nat.digitChar (n % 10)]

/-- The decimal digit string of a natural number. -/
def natDecimal (n : Nat) : Str := natDigitsF (n + 1) n

/-- Model of Rust `format!("{:03}", n)`: the decimal digits of `n`,
left-padded with `0` to width 3. -/
def pad3 (n : Nat) : Str :=
  List.replicate (3 - (natDecimal n).length) '0' ++ natDecimal n

/-- The extension table of `extract_attachments_from_html`
(lines 529-538 of src/lib.rs): maps the declared media type to a file
extension, with fallback `bin`. -/
def extensionFor (m : Str) : Str :=
  if m = str "image/png" then str "png"
  else if m = str "image/jpeg" ∨ m = str "image/jpg" then str "jpg"
  else if m = str "image/gif" then str "gif"
  else if m = str "image/webp" then str "webp"
  else if m = str "image/svg+xml" then str "svg"
  else if m = str "image/bmp" then str "bmp"
  else if m = str "image/tiff" then str "tiff"
  else str "bin"

/-- The canonical serialized opening of an `img` element up to and including
the opening quote of its `src` attribute value. -/
def imgMarker : Str := str "<img src=\""

/-- Fuel-indexed worker for `collectImgSrcs`. -/
def collectImgSrcsF : Nat → Str → List Str
  | 0, _ => []
  | _ + 1, [] => []
  | f + 1, c :: cs =>
    if startsWith imgMarker (c :: cs) then
      let r := List.drop imgMarker.length (c :: cs)
      let v := List.takeWhile (fun x => x != '"') r
      v :: collectImgSrcsF f (List.drop (v.length + 1) r)
    else collectImgSrcsF f cs

/-- Model of the parsing pipeline of lines 493-513 of src/lib.rs
(`Html::parse_document` + `select(img)` + `attr("src")`): the `src`
attribute values of the document's `img` elements, in document order, for
documents in canonical serialized form where every `img` element is written
`<img src="..."` with a double-quoted `src` as its first attribute. -/
def collectImgSrcs (s : Str) : List Str := collectImgSrcsF s.length s

deriving instance DecidableEq for Except

/-- The error cases of the extraction engine; models the
`ExportError::Base64DecodeError` variant of src/lib.rs (line 99-101), the
only failure the pure part of the engine can produce. -/
inductive ExtractError where
  | base64DecodeError
deriving DecidableEq, Repr

/-- Model of `ExtractedAttachment` (lines 443-451 of src/lib.rs).  `path`
is the stored path as a list of components. -/
structure ExtractedAttachment where
  path : List Str
  original_data_url : Str
  mime_type : Str
deriving DecidableEq, Repr

/-- Model of `ExtractionResult` (lines 454-462 of src/lib.rs), enriched
with the file-system effects of the call: `doc_content` is the on-disk
content of the processed document after the call (the rewrite of line 576
happens only when `html_modified`), `writes` is the ordered list of
attachment files written (path, bytes), and `replacements` is the ordered
trace of the `str::replace` calls of line 564 (pattern, replacement). -/
structure ExtractionResult where
  attachments : List ExtractedAttachment
  html_modified : Bool
  doc_content : Str
  writes : List (List Str × List Nat)
  replacements : List (Str × Str)
deriving DecidableEq, Repr

/-- The loop state of the `for element in document.select(..)` loop of
`extract_attachments_from_html` (lines 496-498 plus the write trace). -/
structure LoopState where
  attachments : List ExtractedAttachment
  modified_html : Str
  attachment_count : Nat
  writes : List (List Str × List Nat)
  replacements : List (Str × Str)
deriving DecidableEq, Repr

/-- One iteration of the extraction loop (lines 510-571 of src/lib.rs) on
a single collected `src` value. -/
def processSrc (parent : List Str) (stem : Str) (st : LoopState) (src : Str) :
    Except ExtractError LoopState :=
  if !startsWith (str "data:image/") src then .ok st
  else
    match (stripLead (str "data:") src).bind (splitOnce ',') with
    | none => .ok st
    | some (mimePart, base64Data) =>
      let mimeType := List.takeWhile (fun x => x != ';') mimePart
      let extension := extensionFor mimeType
      match b64Decode base64Data with
      | none => .error .base64DecodeError
      | some decodedData =>
        let n := st.attachment_count + 1
        let filename := str "attachment-" ++ pad3 n ++ str "." ++ extension
        let attachmentPath := parent ++ [stem ++ str "-attachments", filename]
        let relativePath := stem ++ str "-attachments" ++ str "/" ++ filename
        .ok { attachments := st.attachments ++
                [{ path := attachmentPath
                 , original_data_url := src
                 , mime_type := mimeType }]
            , modified_html := replaceAll src relativePath st.modified_html
            , attachment_count := n
            , writes := st.writes ++ [(attachmentPath, decodedData)]
            , replacements := st.replacements ++ [(src, relativePath)] }

/-- The extraction loop over all collected `src` values, with the `?`
error propagation of the Rust code. -/
def runSrcs (parent : List Str) (stem : Str) :
    List Str → LoopState → Except ExtractError LoopState
  | [], st => .ok st
  | v :: vs, st =>
    match processSrc parent stem st v with
    | .error e => .error e
    | .ok st' => runSrcs parent stem vs st'

/-- Model of `extract_attachments_from_html` (lines 489-584 of
src/lib.rs).  `parent` is the document's parent directory (as components)
and `stem` its file stem; the document's current text is `htmlContent`. -/
def extract_attachments_from_html (parent : List Str) (stem : Str)
    (htmlContent : Str) : Except ExtractError ExtractionResult :=
  match runSrcs parent stem (collectImgSrcs htmlContent)
      { attachments := []
      , modified_html := htmlContent
      , attachment_count := 0
      , writes := []
      , replacements := [] } with
  | .error e => .error e
  | .ok st =>
    .ok { attachments := st.attachments
        , html_modified := !st.attachments.isEmpty
        , doc_content :=
            if st.attachments.isEmpty then htmlContent else st.modified_html
        , writes := st.writes
        , replacements := st.replacements }

/-- The on-disk content of the source document after a call of
`extract_attachments_from_html`: the rewrite of line 576 is only reached in
the success path, so on an error the document keeps its previous content. -/
def docOnDiskAfter (original : Str) :
    Except ExtractError ExtractionResult → Str
  | .error _ => original
  | .ok o => o.doc_content

/-- A node of the modelled file-system tree: a regular file with text
content, or a directory with an ordered entry list (the order stands in
for the `fs::read_dir` enumeration order). -/
inductive FsEntry where
  | file (name : Str) (content : Str)
  | dir (name : Str) (entries : List FsEntry)

/-- Model of Rust `Path::extension()` on a file name: the portion after
the last `.`, unless there is no `.` or the name begins with its only
`.` (a hidden file), in which case `none`. -/
def extOf (name : Str) : Option Str :=
  let r := name.reverse
  if '.' ∈ r then
    let extRev := List.takeWhile (fun x => x != '.') r
    if List.drop (extRev.length + 1) r = [] ∧ extRev.length + 1 = r.length
    then none
    else some extRev.reverse
  else none

/-- Model of Rust `Path::file_stem()` on a file name (`unwrap_or("note")`
never fires for UTF-8 names): the name with its extension removed. -/
def fileStem (name : Str) : Str :=
  let r := name.reverse
  if '.' ∈ r then
    let extRev := List.takeWhile (fun x => x != '.') r
    if List.drop (extRev.length + 1) r = [] ∧ extRev.length + 1 = r.length
    then name
    else (List.drop (extRev.length + 1) r).reverse
  else name

mutual

/-- The body of the `for entry in fs::read_dir(dir)?` loop of
`extract_attachments_recursive` (lines 621-639 of src/lib.rs) for one
directory entry, given the path of the containing directory. -/
def processEntry (path : List Str) : FsEntry → Except ExtractError (List ExtractionResult)
  | .file name content =>
    if extOf name = some (str "html") then
      match extract_attachments_from_html path (fileStem name) content with
      | .error e => .error e
      | .ok r => .ok [r]
    else .ok []
  | .dir name entries =>
    if endsWith (str "-attachments") name then .ok []
    else extract_attachments_recursive (path ++ [name]) entries

/-- Model of `extract_attachments_recursive` (lines 616-642 of
src/lib.rs) on the entry list of an existing directory whose path is
`path`; results are appended in traversal order. -/
def extract_attachments_recursive (path : List Str) :
    List FsEntry → Except ExtractError (List ExtractionResult)
  | [] => .ok []
  | e :: es =>
    match processEntry path e with
    | .error err => .error err
    | .ok rs =>
      match extract_attachments_recursive path es with
      | .error err => .error err
      | .ok rest => .ok (rs ++ rest)

end

/-- Model of `Path::is_dir()` on what a path denotes: `none` models a
nonexistent path. -/
def isDirOf : Option FsEntry → Bool
  | some (.dir _ _) => true
  | _ => false

/-- Model of `extract_attachments_from_directory` (lines 607-614 of
src/lib.rs).  `rootPath` is the root directory path (as components) and
`root` is what that path denotes on disk (`none` when nothing exists
there).  The `!dir.is_dir()` guard of line 617 yields an empty result for
a missing or non-directory root. -/
def extract_attachments_from_directory (rootPath : List Str)
    (root : Option FsEntry) : Except ExtractError (List ExtractionResult) :=
  match root with
  | some (.dir _ entries) => extract_attachments_recursive rootPath entries
  | _ => .ok []

/-- Modelled from the spec (§4.4, §8 *Traversal skip*): the files the walk
is required to process — every file whose extension is exactly `html`, in
traversal order, excluding everything inside a subdirectory whose name ends
with `-attachments` — each given as (parent path, file name, content). -/
def specHtmlFiles (path : List Str) : List FsEntry → List (List Str × Str × Str)
  | [] => []
  | .file name content :: es =>
    (if extOf name = some (str "html") then [(path, name, content)] else []) ++
      specHtmlFiles path es
  | .dir name entries :: es =>
    (if endsWith (str "-attachments") name then []
     else specHtmlFiles (path ++ [name]) entries) ++ specHtmlFiles path es

/-- Runs the single-document extractor over a list of (parent path, file
name, content) triples, propagating the first error, collecting one result
per file in order. -/
def mapExtract : List (List Str × Str × Str) → Except ExtractError (List ExtractionResult)
  | [] => .ok []
  | t :: ts =>
    match extract_attachments_from_html t.1 (fileStem t.2.1) t.2.2 with
    | .error e => .error e
    | .ok r =>
      match mapExtract ts with
      | .error e => .error e
      | .ok rs => .ok (r :: rs)

/-- Splits a string at every occurrence of a character; models resolving a
forward-slash-separated relative reference into path components. -/
def splitOnChar (sep : Char) : Str → List Str
  | [] => [[]]
  | c :: cs =>
    let rest := splitOnChar sep cs
    if c = sep then [] :: rest
    else match rest with
      | [] => [[c]]
      | h :: t => (c :: h) :: t

/-- Resolves a forward-slash-separated relative reference against the
directory (component list) of the referring document. -/
def resolveRelative (docDir : List Str) (rel : Str) : List Str :=
  docDir ++ splitOnChar '/' rel

/-- Modelled from the spec (§3 `declaredMediaType`: "lower-cased token
form"): ASCII lower-casing of a string. -/
def specLowerAscii (s : Str) : Str := s.map Char.toLower

/-- The part of `imgMarker` before its closing double quote. -/
def imgMarkerHead : Str := str "<img src="

/-- The decision of lines 516-523 of src/lib.rs on one collected `src`
value: `true` iff the value starts with `data:image/` and contains a comma
after the scheme prefix (the match condition under which the loop body
extracts an attachment). -/
def isMatchedSrc (v : Str) : Bool :=
  startsWith (str "data:image/") v &&
    ((stripLead (str "data:") v).bind (splitOnce ',')).isSome

/-- `true` iff the `src` value matches the data-URL shape of lines 516-523
and its base64 payload fails to decode (line 541). -/
def srcFailsDecode (v : Str) : Bool :=
  startsWith (str "data:image/") v &&
    match (stripLead (str "data:") v).bind (splitOnce ',') with
    | none => false
    | some (_, bd) => (b64Decode bd).isNone

/-- The in-document replacement text built at lines 557-561 of src/lib.rs
for the `n`-th attachment of a document with stem `stem` and declared
media type `m`. -/
def relPathStr (stem : Str) (n : Nat) (m : Str) : Str :=
  stem ++ str "-attachments" ++ str "/" ++
    (str "attachment-" ++ pad3 n ++ str "." ++ extensionFor m)

/-- Serializes a canonical document: alternating raw-markup chunks and
`img` `src` attribute values, ending in a final chunk.  `renderParts
[(c₀, v₀), (c₁, v₁)] last` is `c₀<img src="v₀"c₁<img src="v₁"last`. -/
def renderParts : List (Str × Str) → Str → Str
  | [], last => last
  | (c, v) :: ps, last => c ++ (imgMarker ++ (v ++ '"' :: renderParts ps last))

/-- Well-formedness of one raw chunk relative to the text that follows it:
no scan position inside the chunk begins an `img` marker (so the scanner
attributes exactly the serialized `img` elements). -/
def chunkOk (c t : Str) : Prop :=
  ∀ c₂, c₂ ≠ [] → c₂ <:+ c → startsWith imgMarker (c₂ ++ t) = false

/-- Well-formedness of a canonical document: every chunk satisfies
`chunkOk` against the text following it, and no `src` value contains a
double quote. -/
def partsOk : List (Str × Str) → Str → Prop
  | [], last => chunkOk last []
  | (c, v) :: ps, last =>
    chunkOk c (imgMarker ++ (v ++ '"' :: renderParts ps last)) ∧
      (∀ x ∈ v, x ≠ '"') ∧ partsOk ps last

/-- Re-pairs the chunks of a canonical document with an updated list of
`src` attribute values. -/
def withSlots (parts : List (Str × Str)) (ws : List Str) : List (Str × Str) :=
  List.zipWith (fun p w => (p.1, w)) parts ws

/-- Invariant of one `src` slot during the extraction loop: the current
text of the slot is either still the original value (and then the original
is unmatched or still pending in the remaining work list `vs`), or it has
already been replaced by some generated relative attachment path. -/
def SlotOk (stem : Str) (vs : List Str) (orig cur : Str) : Prop :=
  (cur = orig ∧ (isMatchedSrc orig = false ∨ orig ∈ vs)) ∨
    ∃ n m, cur = relPathStr stem n m

/-- The loop invariant of `extract_attachments_from_html`: the counter
tracks the attachment list, stored paths follow the naming scheme, every
recorded attachment comes from a matched reference and stores its verbatim
pre-semicolon media-type token, and the working text is the fold of the
recorded replacements over the original text. -/
def stInv (parent : List Str) (stem : Str) (content : Str) (st : LoopState) : Prop :=
  st.attachment_count = st.attachments.length ∧
  st.replacements.length = st.attachments.length ∧
  (∀ k a, st.attachments[k]? = some a →
    a.path = parent ++ [stem ++ str "-attachments",
      str "attachment-" ++ pad3 (k + 1) ++ str "." ++ extensionFor a.mime_type]) ∧
  (∀ a ∈ st.attachments,
    startsWith (str "data:image/") a.original_data_url = true ∧
    ∃ mp bd, (stripLead (str "data:") a.original_data_url).bind (splitOnce ',') =
        some (mp, bd) ∧
      a.mime_type = List.takeWhile (fun x => x != ';') mp) ∧
  (∀ pr ∈ st.replacements, startsWith (str "data:image/") pr.1 = true) ∧
  st.modified_html =
    List.foldl (fun acc (pr : Str × Str) => replaceAll pr.1 pr.2 acc)
      content st.replacements

/-! ## Basic facts about the string primitives -/

theorem startsWith_iff {p s : Str} : startsWith p s = true ↔ ∃ t, s = p ++ t := by
  induction p generalizing s with
  | nil => simp [startsWith]
  | cons a ps ih =>
    cases s with
    | nil =>
      simp only [startsWith, List.cons_append]
      constructor
      · intro h; exact absurd h (by simp)
      · rintro ⟨t, ht⟩; exact absurd ht (by simp)
    | cons c cs =>
      simp only [startsWith, Bool.and_eq_true, beq_iff_eq, List.cons_append]
      constructor
      · rintro ⟨rfl, h⟩
        obtain ⟨t, rfl⟩ := ih.mp h
        exact ⟨t, rfl⟩
      · rintro ⟨t, ht⟩
        injection ht with h1 h2
        exact ⟨h1.symm, ih.mpr ⟨t, h2⟩⟩

theorem startsWith_append (p t : Str) : startsWith p (p ++ t) = true :=
  startsWith_iff.mpr ⟨t, rfl⟩

theorem startsWith_length_le {p s : Str} (h : startsWith p s = true) :
    p.length ≤ s.length := by
  obtain ⟨t, rfl⟩ := startsWith_iff.mp h
  simp

theorem startsWith_of_startsWith_append {p a : Str} {b : Str}
    (h : startsWith p a = true) : startsWith p (a ++ b) = true := by
  obtain ⟨t, rfl⟩ := startsWith_iff.mp h
  exact startsWith_iff.mpr ⟨t ++ b, by simp⟩

theorem startsWith_eq_of_take_eq {p s₁ s₂ : Str}
    (h : List.take p.length s₁ = List.take p.length s₂) :
    startsWith p s₁ = startsWith p s₂ := by
  induction p generalizing s₁ s₂ with
  | nil => rfl
  | cons a ps ih =>
    cases s₁ with
    | nil =>
      cases s₂ with
      | nil => rfl
      | cons c cs => simp [List.take] at h
    | cons c cs =>
      cases s₂ with
      | nil => simp [List.take] at h
      | cons d ds =>
        simp only [List.length_cons, List.take_succ_cons, List.cons.injEq] at h
        simp only [startsWith, h.1, ih h.2]

theorem startsWith_iff_take {p s : Str} :
    startsWith p s = true ↔ List.take p.length s = p := by
  constructor
  · intro h
    obtain ⟨t, rfl⟩ := startsWith_iff.mp h
    simp
  · intro h
    refine startsWith_iff.mpr ⟨List.drop p.length s, ?_⟩
    conv_lhs => rw [← List.take_append_drop p.length s, h]

/-! ## The derived equations of `replaceAll` -/

theorem replaceAllF_congr (pat rep : Str) :
    ∀ f g s, s.length ≤ f → s.length ≤ g →
      replaceAllF pat rep f s = replaceAllF pat rep g s := by
  intro f
  induction f with
  | zero =>
    intro g s hf _
    have hs : s = [] := List.length_eq_zero.mp (Nat.le_zero.mp hf)
    subst hs
    cases g <;> rfl
  | succ f ih =>
    intro g s hf hg
    cases s with
    | nil => cases g <;> rfl
    | cons c cs =>
      cases g with
      | zero => simp at hg
      | succ g' =>
        simp only [replaceAllF]
        by_cases hc : (!pat.isEmpty && startsWith pat (c :: cs)) = true
        · rw [if_pos hc, if_pos hc]
          have hp : 1 ≤ pat.length := by
            have hc' := hc
            simp only [Bool.and_eq_true] at hc'
            cases pat with
            | nil => simp at hc'
            | cons _ _ => simp
          have hlen : (List.drop pat.length (c :: cs)).length ≤ f := by
            simp only [List.length_drop, List.length_cons]
            simp only [List.length_cons] at hf
            omega
          have hlen' : (List.drop pat.length (c :: cs)).length ≤ g' := by
            simp only [List.length_drop, List.length_cons]
            simp only [List.length_cons] at hg
            omega
          rw [ih _ _ hlen hlen']
        · rw [if_neg hc, if_neg hc]
          have h1 : cs.length ≤ f := by simp only [List.length_cons] at hf; omega
          have h2 : cs.length ≤ g' := by simp only [List.length_cons] at hg; omega
          rw [ih _ _ h1 h2]

theorem replaceAll_nil (pat rep : Str) : replaceAll pat rep [] = [] := rfl

theorem replaceAll_cons_pos {pat : Str} (rep : Str) {c : Char} {cs : Str}
    (h1 : pat ≠ []) (h2 : startsWith pat (c :: cs) = true) :
    replaceAll pat rep (c :: cs) =
      rep ++ replaceAll pat rep (List.drop pat.length (c :: cs)) := by
  have hc : (!pat.isEmpty && startsWith pat (c :: cs)) = true := by
    simp [h2, List.isEmpty_iff, h1]
  have hp : 1 ≤ pat.length := by
    cases pat with
    | nil => exact absurd rfl h1
    | cons _ _ => simp
  show replaceAllF pat rep (c :: cs).length (c :: cs) = _
  simp only [List.length_cons, replaceAllF, if_pos hc]
  congr 1
  apply replaceAllF_congr
  · simp only [List.length_drop, List.length_cons]; omega
  · exact le_rfl

theorem replaceAll_cons_neg {pat : Str} (rep : Str) {c : Char} {cs : Str}
    (h : startsWith pat (c :: cs) = false) :
    replaceAll pat rep (c :: cs) = c :: replaceAll pat rep cs := by
  have hc : (!pat.isEmpty && startsWith pat (c :: cs)) = false := by
    simp [h]
  show replaceAllF pat rep (c :: cs).length (c :: cs) = _
  simp only [List.length_cons, replaceAllF, hc, Bool.false_eq_true, if_false]
  rfl

theorem replaceAll_head_match {pat : Str} (rep t : Str) (h : pat ≠ []) :
    replaceAll pat rep (pat ++ t) = rep ++ replaceAll pat rep t := by
  cases hp : pat with
  | nil => exact absurd hp h
  | cons a ps =>
    subst hp
    rw [List.cons_append, replaceAll_cons_pos rep h
      (by rw [← List.cons_append]; exact startsWith_append _ _)]
    congr 2
    rw [← List.cons_append, List.drop_left]

theorem replaceAll_self {pat : Str} (rep : Str) (h : pat ≠ []) :
    replaceAll pat rep pat = rep := by
  have h2 := @replaceAll_head_match pat rep [] h
  rw [List.append_nil] at h2
  rw [h2, replaceAll_nil, List.append_nil]

/-! ## Occurrence facts: `containsSub` and `replaceAll` -/

theorem containsSub_iff {pat s : Str} :
    containsSub pat s = true ↔ ∃ a b, s = a ++ pat ++ b := by
  induction s with
  | nil =>
    simp only [containsSub, List.isEmpty_iff]
    constructor
    · rintro rfl; exact ⟨[], [], rfl⟩
    · rintro ⟨a, b, hab⟩
      rcases List.append_eq_nil.mp hab.symm with ⟨h1, h2⟩
      exact (List.append_eq_nil.mp h1).2
  | cons c cs ih =>
    simp only [containsSub, Bool.or_eq_true]
    constructor
    · rintro (h | h)
      · obtain ⟨t, ht⟩ := startsWith_iff.mp h
        exact ⟨[], t, by simp [ht]⟩
      · obtain ⟨a, b, hab⟩ := ih.mp h
        exact ⟨c :: a, b, by simp [hab]⟩
    · rintro ⟨a, b, hab⟩
      cases a with
      | nil =>
        left
        simp only [List.nil_append] at hab
        exact startsWith_iff.mpr ⟨b, hab⟩
      | cons x xs =>
        right
        simp only [List.cons_append, List.cons.injEq] at hab
        exact ih.mpr ⟨xs, b, hab.2⟩

theorem not_contains_of_cons {pat : Str} {c : Char} {cs : Str}
    (h : containsSub pat (c :: cs) = false) : containsSub pat cs = false := by
  simp only [containsSub, Bool.or_eq_false_iff] at h
  exact h.2

theorem startsWith_false_of_not_contains {pat s : Str}
    (h : containsSub pat s = false) (hs : s ≠ []) :
    startsWith pat s = false := by
  cases s with
  | nil => exact absurd rfl hs
  | cons c cs =>
    simp only [containsSub, Bool.or_eq_false_iff] at h
    exact h.1

theorem replaceAll_of_not_contains {pat : Str} (rep : Str) {s : Str}
    (h : containsSub pat s = false) : replaceAll pat rep s = s := by
  induction s with
  | nil => rfl
  | cons c cs ih =>
    simp only [containsSub, Bool.or_eq_false_iff] at h
    rw [replaceAll_cons_neg rep h.1, ih h.2]

theorem not_contains_nil {pat : Str} (h : pat ≠ []) :
    containsSub pat [] = false := by
  simp [containsSub, List.isEmpty_iff, h]

theorem replaceAll_append_sep {pat : Str} (rep : Str) {d : Char} (b : Str)
    (hp : pat ≠ []) (hd : d ∉ pat) :
    ∀ a : Str, replaceAll pat rep (a ++ d :: b) =
      replaceAll pat rep a ++ d :: replaceAll pat rep b := by
  suffices H : ∀ n (a : Str), a.length ≤ n →
      replaceAll pat rep (a ++ d :: b) =
        replaceAll pat rep a ++ d :: replaceAll pat rep b by
    exact fun a => H a.length a le_rfl
  intro n
  induction n with
  | zero =>
    intro a ha
    have hae : a = [] := List.length_eq_zero.mp (Nat.le_zero.mp ha)
    subst hae
    simp only [List.nil_append, replaceAll_nil]
    have hsw : startsWith pat (d :: b) = false := by
      by_contra hc
      have hc' : startsWith pat (d :: b) = true := by
        cases hx : startsWith pat (d :: b) with
        | true => rfl
        | false => exact absurd hx hc
      obtain ⟨t, ht⟩ := startsWith_iff.mp hc'
      cases pat with
      | nil => exact absurd rfl hp
      | cons q qs =>
        simp only [List.cons_append, List.cons.injEq] at ht
        exact hd (ht.1 ▸ List.mem_cons_self q qs)
    rw [replaceAll_cons_neg rep hsw]
  | succ n ih =>
    intro a ha
    cases a with
    | nil => exact ih [] (Nat.zero_le n)
    | cons c cs =>
      by_cases hsw : startsWith pat (c :: cs) = true
      · -- the head of `a` begins an occurrence, lying entirely inside `a`
        obtain ⟨t, ht⟩ := startsWith_iff.mp hsw
        have hsw' : startsWith pat ((c :: cs) ++ d :: b) = true :=
          startsWith_of_startsWith_append hsw
        have hp1 : 1 ≤ pat.length := by
          cases pat with
          | nil => exact absurd rfl hp
          | cons _ _ => simp
        rw [ht]
        rw [List.append_assoc, replaceAll_head_match rep _ hp,
          replaceAll_head_match rep _ hp]
        have hlt : t.length ≤ n := by
          have : (c :: cs).length = pat.length + t.length := by
            rw [ht]; simp
          simp only [List.length_cons] at ha this
          omega
        rw [ih t hlt, List.append_assoc]
      · have hswf : startsWith pat (c :: cs) = false := by
          cases hx : startsWith pat (c :: cs) with
          | true => exact absurd hx hsw
          | false => rfl
        have hswf2 : startsWith pat ((c :: cs) ++ d :: b) = false := by
          cases hx : startsWith pat ((c :: cs) ++ d :: b) with
          | false => rfl
          | true =>
            exfalso
            obtain ⟨t, ht⟩ := startsWith_iff.mp hx
            by_cases hlen : pat.length ≤ (c :: cs).length
            · -- then pat is a prefix of c :: cs already
              have : List.take pat.length ((c :: cs) ++ d :: b) = pat := by
                rw [ht, List.take_left]
              rw [List.take_append_eq_append_take,
                Nat.sub_eq_zero_of_le hlen, List.take_zero,
                List.append_nil] at this
              exact hsw (startsWith_iff_take.mpr this)
            · -- then pat reaches past `a` and must contain `d`
              push_neg at hlen
              have hdpat : pat[(c :: cs).length]? = some d := by
                have h1 : ((c :: cs) ++ d :: b)[(c :: cs).length]? = some d := by
                  rw [List.getElem?_append_right le_rfl]
                  simp
                rw [ht] at h1
                rw [List.getElem?_append_left hlen] at h1
                exact h1
              exact hd (List.getElem?_mem hdpat)
        have hlen2 : cs.length ≤ n := by
          simp only [List.length_cons] at ha; omega
        have hswf2' : startsWith pat (c :: (cs ++ d :: b)) = false := hswf2
        rw [List.cons_append, replaceAll_cons_neg rep hswf2',
          replaceAll_cons_neg rep hswf, ih cs hlen2]
        simp

/-! ## The derived equations of `collectImgSrcs` -/

theorem takeWhile_append_stop {p : Char → Bool} {v : Str} {d : Char} (rest : Str)
    (hv : ∀ x ∈ v, p x = true) (hd : p d = false) :
    List.takeWhile p (v ++ d :: rest) = v := by
  induction v with
  | nil => simp [List.takeWhile_cons, hd]
  | cons x xs ih =>
    rw [List.cons_append, List.takeWhile_cons, hv x (List.mem_cons_self x xs)]
    rw [ih (fun y hy => hv y (List.mem_cons_of_mem x hy))]
    simp

theorem drop_past_sep {v : Str} {d : Char} (rest : Str) :
    List.drop (v.length + 1) (v ++ d :: rest) = rest := by
  have h : v ++ d :: rest = (v ++ [d]) ++ rest := by simp
  rw [h]
  rw [List.drop_left' (by simp)]

theorem collectImgSrcsF_congr :
    ∀ f g s, s.length ≤ f → s.length ≤ g →
      collectImgSrcsF f s = collectImgSrcsF g s := by
  intro f
  induction f with
  | zero =>
    intro g s hf _
    have hs : s = [] := List.length_eq_zero.mp (Nat.le_zero.mp hf)
    subst hs
    cases g <;> rfl
  | succ f ih =>
    intro g s hf hg
    cases s with
    | nil => cases g <;> rfl
    | cons c cs =>
      cases g with
      | zero => simp at hg
      | succ g' =>
        simp only [collectImgSrcsF]
        by_cases hc : startsWith imgMarker (c :: cs) = true
        · rw [if_pos hc, if_pos hc]
          congr 1
          apply ih
          · simp only [List.length_drop, List.length_cons]
            simp only [List.length_cons] at hf
            omega
          · simp only [List.length_drop, List.length_cons]
            simp only [List.length_cons] at hg
            omega
        · rw [if_neg hc, if_neg hc]
          apply ih
          · simp only [List.length_cons] at hf; omega
          · simp only [List.length_cons] at hg; omega

theorem collect_cons_pos {c : Char} {cs : Str}
    (h : startsWith imgMarker (c :: cs) = true) :
    collectImgSrcs (c :: cs) =
      List.takeWhile (fun x => x != '"') (List.drop imgMarker.length (c :: cs)) ::
        collectImgSrcs
          (List.drop
            ((List.takeWhile (fun x => x != '"')
              (List.drop imgMarker.length (c :: cs))).length + 1)
            (List.drop imgMarker.length (c :: cs))) := by
  show collectImgSrcsF (c :: cs).length (c :: cs) = _
  simp only [List.length_cons, collectImgSrcsF, if_pos h]
  congr 1
  apply collectImgSrcsF_congr
  · simp only [List.length_drop, List.length_cons]
    omega
  · exact le_rfl

theorem collect_cons_neg {c : Char} {cs : Str}
    (h : startsWith imgMarker (c :: cs) = false) :
    collectImgSrcs (c :: cs) = collectImgSrcs cs := by
  show collectImgSrcsF (c :: cs).length (c :: cs) = _
  simp only [List.length_cons, collectImgSrcsF, h, Bool.false_eq_true, if_false]
  rfl

theorem collect_skip (t : Str) :
    ∀ ch : Str,
      (∀ c₂, c₂ ≠ [] → c₂ <:+ ch → startsWith imgMarker (c₂ ++ t) = false) →
      collectImgSrcs (ch ++ t) = collectImgSrcs t := by
  intro ch
  induction ch with
  | nil => intro _; rfl
  | cons x xs ih =>
    intro h
    have hx : startsWith imgMarker (x :: (xs ++ t)) = false := by
      have := h (x :: xs) (by simp) (List.suffix_refl _)
      rwa [List.cons_append] at this
    rw [List.cons_append, collect_cons_neg hx]
    exact ih (fun c₂ hne hsuf => h c₂ hne (hsuf.trans (List.suffix_cons x xs)))

theorem collect_img (v rest : Str) (hv : ∀ x ∈ v, x ≠ '"') :
    collectImgSrcs (imgMarker ++ (v ++ '"' :: rest)) = v :: collectImgSrcs rest := by
  have hcons : imgMarker ++ (v ++ '"' :: rest) =
      '<' :: (str "img src=\"" ++ (v ++ '"' :: rest)) := rfl
  have hsw : startsWith imgMarker ('<' :: (str "img src=\"" ++ (v ++ '"' :: rest))) = true := by
    rw [← hcons]; exact startsWith_append _ _
  rw [hcons, collect_cons_pos hsw, ← hcons]
  rw [List.drop_left]
  have htw : List.takeWhile (fun x => x != '"') (v ++ '"' :: rest) = v := by
    apply takeWhile_append_stop
    · intro x hx
      simpa using hv x hx
    · simp
  rw [htw, drop_past_sep]

/-! ## Parsing and rewriting of canonical documents -/

theorem collect_renderParts :
    ∀ (parts : List (Str × Str)) (last : Str), partsOk parts last →
      collectImgSrcs (renderParts parts last) = parts.map Prod.snd := by
  intro parts
  induction parts with
  | nil =>
    intro last h
    have := collect_skip [] last h
    simpa using this
  | cons p ps ih =>
    intro last h
    obtain ⟨c, v⟩ := p
    obtain ⟨h1, h2, h3⟩ := h
    show collectImgSrcs (c ++ (imgMarker ++ (v ++ '"' :: renderParts ps last))) = _
    rw [collect_skip _ c h1, collect_img v _ h2, ih last h3]
    rfl

theorem chunkOk_congr {c t₁ t₂ : Str} (h : chunkOk c (imgMarker ++ t₁)) :
    chunkOk c (imgMarker ++ t₂) := by
  intro c₂ hne hsuf
  have h1 := h c₂ hne hsuf
  have key : ∀ t : Str, List.take imgMarker.length (c₂ ++ (imgMarker ++ t)) =
      List.take imgMarker.length c₂ ++
        List.take (imgMarker.length - c₂.length) imgMarker := by
    intro t
    rw [List.take_append_eq_append_take]
    congr 1
    rw [List.take_append_eq_append_take]
    have hz : imgMarker.length - c₂.length - imgMarker.length = 0 := by omega
    rw [hz, List.take_zero, List.append_nil]
  have htake := (key t₂).trans (key t₁).symm
  rw [startsWith_eq_of_take_eq htake]
  exact h1

theorem renderParts_regroup (c v : Str) (ps : List (Str × Str)) (last : Str) :
    renderParts ((c, v) :: ps) last =
      (c ++ imgMarkerHead) ++ '"' :: (v ++ '"' :: renderParts ps last) := by
  show c ++ (imgMarker ++ (v ++ '"' :: renderParts ps last)) = _
  rw [show imgMarker = imgMarkerHead ++ ['"'] from rfl]
  simp

theorem replaceAll_renderParts {pat : Str} (rep : Str)
    (hp : pat ≠ []) (hq : '"' ∉ pat) :
    ∀ (parts : List (Str × Str)) (last : Str),
      (∀ ch ∈ parts.map Prod.fst, containsSub pat (ch ++ imgMarkerHead) = false) →
      containsSub pat last = false →
      replaceAll pat rep (renderParts parts last) =
        renderParts (parts.map (fun p => (p.1, replaceAll pat rep p.2))) last := by
  intro parts
  induction parts with
  | nil =>
    intro last _ hlast
    exact replaceAll_of_not_contains rep hlast
  | cons p ps ih =>
    intro last hch hlast
    obtain ⟨c, v⟩ := p
    rw [renderParts_regroup]
    rw [replaceAll_append_sep rep _ hp hq]
    rw [replaceAll_append_sep rep _ hp hq]
    have hc : containsSub pat (c ++ imgMarkerHead) = false :=
      hch c (by simp)
    rw [replaceAll_of_not_contains rep hc]
    rw [ih last (fun ch hm => hch ch (by simp [hm])) hlast]
    rw [List.map_cons, renderParts_regroup]

/-- Re-pairing with well-formed slot values preserves document
well-formedness. -/
theorem partsOk_withSlots :
    ∀ (parts : List (Str × Str)) (last : Str) (ws : List Str),
      partsOk parts last → ws.length = parts.length →
      (∀ w ∈ ws, ∀ x ∈ w, x ≠ '"') →
      partsOk (withSlots parts ws) last := by
  intro parts
  induction parts with
  | nil =>
    intro last ws h _ _
    have : withSlots [] ws = [] := by simp [withSlots]
    rw [this]
    exact h
  | cons p ps ih =>
    intro last ws h hlen hw
    obtain ⟨c, v⟩ := p
    cases ws with
    | nil => simp at hlen
    | cons w ws' =>
      obtain ⟨h1, h2, h3⟩ := h
      refine ⟨?_, ?_, ?_⟩
      · exact chunkOk_congr h1
      · exact fun x hx => hw w (by simp) x hx
      · exact ih last ws' h3 (by simpa using hlen)
          (fun u hu x hx => hw u (by simp [hu]) x hx)

/-! ## Character-content facts about generated names -/

theorem natDigitsF_digits :
    ∀ f n c, c ∈ natDigitsF f n → ∃ m, m < 10 ∧ c = Nat.digitChar m := by
  intro f
  induction f with
  | zero => intro n c h; simp [natDigitsF] at h
  | succ f ih =>
    intro n c h
    simp only [natDigitsF] at h
    by_cases hn : n < 10
    · rw [if_pos hn] at h
      simp at h
      exact ⟨n, hn, h⟩
    · rw [if_neg hn] at h
      rcases List.mem_append.mp h with h1 | h1
      · exact ih _ c h1
      · simp at h1
        exact ⟨n % 10, Nat.mod_lt _ (by norm_num), h1⟩

theorem digitChar_ne_slash {m : Nat} (h : m < 10) : Nat.digitChar m ≠ '/' := by
  interval_cases m <;> decide

theorem digitChar_ne_quote {m : Nat} (h : m < 10) : Nat.digitChar m ≠ '"' := by
  interval_cases m <;> decide

theorem pad3_no_slash (n : Nat) : '/' ∉ pad3 n := by
  intro h
  rcases List.mem_append.mp h with h1 | h1
  · exact absurd (List.eq_of_mem_replicate h1) (by decide)
  · obtain ⟨m, hm, hc⟩ := natDigitsF_digits _ _ _ h1
    exact digitChar_ne_slash hm hc.symm

theorem pad3_no_quote (n : Nat) : '"' ∉ pad3 n := by
  intro h
  rcases List.mem_append.mp h with h1 | h1
  · exact absurd (List.eq_of_mem_replicate h1) (by decide)
  · obtain ⟨m, hm, hc⟩ := natDigitsF_digits _ _ _ h1
    exact digitChar_ne_quote hm hc.symm

theorem extensionFor_no_slash (m : Str) : '/' ∉ extensionFor m := by
  unfold extensionFor
  split_ifs <;> decide

theorem extensionFor_no_quote (m : Str) : '"' ∉ extensionFor m := by
  unfold extensionFor
  split_ifs <;> decide

/-! ## The replacement path never contains a data-URL pattern -/

theorem append_sep_inj {c : Char} :
    ∀ {A A' B B' : Str}, c ∉ A → c ∉ A' →
      A ++ c :: B = A' ++ c :: B' → A = A' ∧ B = B' := by
  intro A
  induction A with
  | nil =>
    intro A' B B' _ hA' h
    cases A' with
    | nil =>
      simp only [List.nil_append, List.cons.injEq] at h
      exact ⟨rfl, h.2⟩
    | cons a as =>
      simp only [List.nil_append, List.cons_append, List.cons.injEq] at h
      exact absurd (by rw [h.1]; exact List.mem_cons_self a as) hA'
  | cons x xs ih =>
    intro A' B B' hA hA' h
    cases A' with
    | nil =>
      simp only [List.cons_append, List.nil_append, List.cons.injEq] at h
      exact absurd (by rw [← h.1]; exact List.mem_cons_self x xs) hA
    | cons y ys =>
      simp only [List.cons_append, List.cons.injEq] at h
      obtain ⟨hxy, hrest⟩ := h
      obtain ⟨h1, h2⟩ := ih (fun hc => hA (List.mem_cons_of_mem x hc))
        (fun hc => hA' (List.mem_cons_of_mem y hc)) hrest
      exact ⟨by rw [hxy, h1], h2⟩

theorem relPath_decomp (stem : Str) (n : Nat) (m : Str) :
    relPathStr stem n m =
      (stem ++ str "-attachments") ++ '/' ::
        (str "attachment-" ++ pad3 n ++ str "." ++ extensionFor m) := by
  show stem ++ str "-attachments" ++ str "/" ++ _ = _
  rw [show str "/" = ['/'] from rfl]
  simp

theorem relPath_filename_no_slash (n : Nat) (m : Str) :
    '/' ∉ str "attachment-" ++ pad3 n ++ str "." ++ extensionFor m := by
  intro h
  rcases List.mem_append.mp h with h1 | h1
  · rcases List.mem_append.mp h1 with h2 | h2
    · rcases List.mem_append.mp h2 with h3 | h3
      · revert h3; decide
      · exact pad3_no_slash n h3
    · revert h2; decide
  · exact extensionFor_no_slash m h1

theorem relPath_front_no_slash {stem : Str} (hstem : '/' ∉ stem) :
    '/' ∉ stem ++ str "-attachments" := by
  intro h
  rcases List.mem_append.mp h with h1 | h1
  · exact hstem h1
  · revert h1; decide

theorem relPath_no_quote {stem : Str} (hstem : '"' ∉ stem) (n : Nat) (m : Str) :
    '"' ∉ relPathStr stem n m := by
  rw [relPath_decomp]
  intro h
  rcases List.mem_append.mp h with h1 | h1
  · rcases List.mem_append.mp h1 with h2 | h2
    · exact hstem h2
    · revert h2; decide
  · rcases List.mem_cons.mp h1 with h2 | h2
    · exact absurd h2 (by decide)
    · rcases List.mem_append.mp h2 with h3 | h3
      · rcases List.mem_append.mp h3 with h4 | h4
        · rcases List.mem_append.mp h4 with h5 | h5
          · revert h5; decide
          · exact pad3_no_quote n h5
        · revert h4; decide
      · exact extensionFor_no_quote m h3

theorem count_relPath {stem : Str} (hstem : '/' ∉ stem) (n : Nat) (m : Str) :
    List.count '/' (relPathStr stem n m) = 1 := by
  rw [relPath_decomp, List.count_append, List.count_cons_self]
  rw [List.count_eq_zero.mpr (relPath_front_no_slash hstem),
    List.count_eq_zero.mpr (relPath_filename_no_slash n m)]

theorem not_contains_dataImage_relPath {stem : Str} (hstem : '/' ∉ stem)
    (n : Nat) (m : Str) :
    containsSub (str "data:image/") (relPathStr stem n m) = false := by
  cases hC : containsSub (str "data:image/") (relPathStr stem n m) with
  | false => rfl
  | true =>
    exfalso
    obtain ⟨x, y, hxy⟩ := containsSub_iff.mp hC
    have hxy' : relPathStr stem n m = (x ++ str "data:image") ++ '/' :: y := by
      rw [hxy, show str "data:image/" = str "data:image" ++ ['/'] from rfl]
      simp
    have hcount := count_relPath hstem n m
    rw [hxy', List.count_append, List.count_cons_self] at hcount
    have hx0 : List.count '/' (x ++ str "data:image") = 0 := by omega
    have hy0 : List.count '/' y = 0 := by
      rw [List.count_append] at hx0
      omega
    have hxq : '/' ∉ x ++ str "data:image" := List.count_eq_zero.mp hx0
    have hd := relPath_decomp stem n m
    obtain ⟨hAA, _⟩ := append_sep_inj (relPath_front_no_slash hstem) hxq
      (hd.symm.trans hxy')
    have hrev := congrArg List.reverse hAA
    rw [List.reverse_append, List.reverse_append] at hrev
    have h1 : (str "-attachments").reverse = str "stnemhcatta-" := rfl
    have h2 : (str "data:image").reverse = str "egami:atad" := rfl
    rw [h1, h2] at hrev
    have h3 : str "stnemhcatta-" ++ stem.reverse =
        's' :: (str "tnemhcatta-" ++ stem.reverse) := rfl
    have h4 : str "egami:atad" ++ x.reverse =
        'e' :: (str "gami:atad" ++ x.reverse) := rfl
    rw [h3, h4] at hrev
    injection hrev with h5 _
    exact absurd h5 (by decide)

theorem containsSub_of_starts {p s : Str} (h : startsWith p s = true) :
    containsSub p s = true := by
  obtain ⟨t, rfl⟩ := startsWith_iff.mp h
  exact containsSub_iff.mpr ⟨[], t, by simp⟩

theorem contains_trans_sub {p v w : Str} (hpv : startsWith p v = true)
    (hc : containsSub v w = true) : containsSub p w = true := by
  obtain ⟨t, rfl⟩ := startsWith_iff.mp hpv
  obtain ⟨a, b, hab⟩ := containsSub_iff.mp hc
  exact containsSub_iff.mpr ⟨a, t ++ b, by rw [hab]; simp⟩

theorem isMatchedSrc_starts {v : Str} (h : isMatchedSrc v = true) :
    startsWith (str "data:image/") v = true := by
  simp only [isMatchedSrc, Bool.and_eq_true] at h
  exact h.1

theorem isMatchedSrc_ne_nil {v : Str} (h : isMatchedSrc v = true) : v ≠ [] := by
  intro hv
  subst hv
  exact absurd (isMatchedSrc_starts h) (by decide)

theorem matched_not_in_relPath {stem v : Str} (hstem : '/' ∉ stem)
    (hm : isMatchedSrc v = true) (n : Nat) (m : Str) :
    containsSub v (relPathStr stem n m) = false := by
  cases h : containsSub v (relPathStr stem n m) with
  | false => rfl
  | true =>
    have h2 := contains_trans_sub (isMatchedSrc_starts hm) h
    rw [not_contains_dataImage_relPath hstem] at h2
    exact absurd h2 (by decide)

theorem isMatchedSrc_relPath_false {stem : Str} (hstem : '/' ∉ stem)
    (n : Nat) (m : Str) : isMatchedSrc (relPathStr stem n m) = false := by
  cases h : isMatchedSrc (relPathStr stem n m) with
  | false => rfl
  | true =>
    have h2 := containsSub_of_starts (isMatchedSrc_starts h)
    rw [not_contains_dataImage_relPath hstem] at h2
    exact absurd h2 (by decide)

/-! ## Characterizing the extraction loop -/

theorem processSrc_skip (parent : List Str) (stem : Str) (st : LoopState)
    {v : Str} (h : isMatchedSrc v = false) :
    processSrc parent stem st v = .ok st := by
  by_cases hs : startsWith (str "data:image/") v = true
  · have hbind : (stripLead (str "data:") v).bind (splitOnce ',') = none := by
      simp only [isMatchedSrc, hs, Bool.true_and] at h
      exact Option.not_isSome_iff_eq_none.mp (by simp [h])
    simp [processSrc, hs, hbind]
  · have hs' : startsWith (str "data:image/") v = false := by
      cases hx : startsWith (str "data:image/") v with
      | true => exact absurd hx hs
      | false => rfl
    simp [processSrc, hs']

theorem processSrc_matched_err (parent : List Str) (stem : Str) (st : LoopState)
    {v mp bd : Str}
    (hs : startsWith (str "data:image/") v = true)
    (hsplit : (stripLead (str "data:") v).bind (splitOnce ',') = some (mp, bd))
    (hdec : b64Decode bd = none) :
    processSrc parent stem st v = .error .base64DecodeError := by
  simp [processSrc, hs, hsplit, hdec]

theorem processSrc_matched_ok (parent : List Str) (stem : Str) (st : LoopState)
    {v mp bd : Str} {bytes : List Nat}
    (hs : startsWith (str "data:image/") v = true)
    (hsplit : (stripLead (str "data:") v).bind (splitOnce ',') = some (mp, bd))
    (hdec : b64Decode bd = some bytes) :
    processSrc parent stem st v = .ok
      { attachments := st.attachments ++
          [{ path := parent ++ [stem ++ str "-attachments",
               str "attachment-" ++ pad3 (st.attachment_count + 1) ++ str "." ++
                 extensionFor (List.takeWhile (fun x => x != ';') mp)]
           , original_data_url := v
           , mime_type := List.takeWhile (fun x => x != ';') mp }]
      , modified_html := replaceAll v
          (relPathStr stem (st.attachment_count + 1)
            (List.takeWhile (fun x => x != ';') mp)) st.modified_html
      , attachment_count := st.attachment_count + 1
      , writes := st.writes ++
          [(parent ++ [stem ++ str "-attachments",
             str "attachment-" ++ pad3 (st.attachment_count + 1) ++ str "." ++
               extensionFor (List.takeWhile (fun x => x != ';') mp)], bytes)]
      , replacements := st.replacements ++
          [(v, relPathStr stem (st.attachment_count + 1)
              (List.takeWhile (fun x => x != ';') mp))] } := by
  simp [processSrc, hs, hsplit, hdec, relPathStr]

theorem runSrcs_no_match (parent : List Str) (stem : Str) :
    ∀ (vs : List Str) (st : LoopState),
      (∀ v ∈ vs, isMatchedSrc v = false) →
      runSrcs parent stem vs st = .ok st := by
  intro vs
  induction vs with
  | nil => intro st _; rfl
  | cons v vs' ih =>
    intro st h
    show runSrcs parent stem (v :: vs') st = .ok st
    rw [runSrcs, processSrc_skip parent stem st (h v (by simp))]
    exact ih st (fun u hu => h u (by simp [hu]))

theorem runSrcs_err (parent : List Str) (stem : Str) :
    ∀ (vs : List Str) (st : LoopState),
      (∃ v ∈ vs, srcFailsDecode v = true) →
      runSrcs parent stem vs st = .error .base64DecodeError := by
  intro vs
  induction vs with
  | nil => intro st h; simp at h
  | cons v₀ vs' ih =>
    intro st h
    obtain ⟨v, hv, hfail⟩ := h
    rcases List.mem_cons.mp hv with rfl | hv'
    · -- the head itself fails to decode
      simp only [srcFailsDecode, Bool.and_eq_true] at hfail
      obtain ⟨hs, hrest⟩ := hfail
      cases hsplit : (stripLead (str "data:") v).bind (splitOnce ',') with
      | none => rw [hsplit] at hrest; simp at hrest
      | some p =>
        obtain ⟨mp, bd⟩ := p
        rw [hsplit] at hrest
        simp only [Option.isNone_iff_eq_none] at hrest
        rw [runSrcs, processSrc_matched_err parent stem st hs hsplit hrest]
    · cases hps : processSrc parent stem st v₀ with
      | error e =>
        cases e
        rw [runSrcs, hps]
      | ok st₁ =>
        rw [runSrcs, hps]
        exact ih st₁ ⟨v, hv', hfail⟩

theorem runSrcs_stInv (parent : List Str) (stem : Str) (content : Str) :
    ∀ (vs : List Str) (st st' : LoopState),
      runSrcs parent stem vs st = .ok st' →
      stInv parent stem content st → stInv parent stem content st' := by
  intro vs
  induction vs with
  | nil =>
    intro st st' h hinv
    simp only [runSrcs] at h
    injection h with h
    exact h ▸ hinv
  | cons v vs' ih =>
    intro st st' h hinv
    rw [runSrcs] at h
    by_cases hm : isMatchedSrc v = true
    · have hs := isMatchedSrc_starts hm
      have hsome : ((stripLead (str "data:") v).bind (splitOnce ',')).isSome = true := by
        simp only [isMatchedSrc, Bool.and_eq_true] at hm
        exact hm.2
      cases hsplit : (stripLead (str "data:") v).bind (splitOnce ',') with
      | none => rw [hsplit] at hsome; simp at hsome
      | some p =>
        obtain ⟨mp, bd⟩ := p
        cases hdec : b64Decode bd with
        | none =>
          rw [processSrc_matched_err parent stem st hs hsplit hdec] at h
          exact absurd h (by simp)
        | some bytes =>
          rw [processSrc_matched_ok parent stem st hs hsplit hdec] at h
          refine ih _ st' h ?_
          obtain ⟨h1, h2, h3, h4, h5, h6⟩ := hinv
          refine ⟨by simp [h1], by simp [h2], ?_, ?_, ?_, ?_⟩
          · intro k a hka
            by_cases hk : k < st.attachments.length
            · rw [List.getElem?_append_left hk] at hka
              exact h3 k a hka
            · push_neg at hk
              rw [List.getElem?_append_right hk] at hka
              simp only [List.getElem?_cons, List.getElem?_nil] at hka
              by_cases hk0 : k - st.attachments.length = 0
              · rw [if_pos hk0] at hka
                injection hka with hka
                subst hka
                have hkeq : k = st.attachments.length := by omega
                subst hkeq
                simp [h1]
              · rw [if_neg hk0] at hka
                simp at hka
          · intro a ha
            rcases List.mem_append.mp ha with ha1 | ha1
            · exact h4 a ha1
            · simp only [List.mem_singleton] at ha1
              subst ha1
              exact ⟨hs, mp, bd, hsplit, rfl⟩
          · intro pr hpr
            rcases List.mem_append.mp hpr with hp1 | hp1
            · exact h5 pr hp1
            · simp only [List.mem_singleton] at hp1
              subst hp1
              exact hs
          · rw [List.foldl_append, ← h6]
            rfl
    · have hm' : isMatchedSrc v = false := by
        cases hx : isMatchedSrc v with
        | true => exact absurd hx hm
        | false => rfl
      rw [processSrc_skip parent stem st hm'] at h
      exact ih _ st' h hinv

/-- The invariant holds of the initial loop state. -/
theorem stInv_init (parent : List Str) (stem : Str) (content : Str) :
    stInv parent stem content
      { attachments := []
      , modified_html := content
      , attachment_count := 0
      , writes := []
      , replacements := [] } := by
  refine ⟨rfl, rfl, ?_, ?_, ?_, rfl⟩
  · intro k a hka; simp at hka
  · intro a ha; simp at ha
  · intro pr hpr; simp at hpr

/-- Packaging of the invariant at the `extract_attachments_from_html`
level, for a successful call. -/
theorem extract_ok_inv {parent : List Str} {stem : Str} {content : Str}
    {o : ExtractionResult}
    (h : extract_attachments_from_html parent stem content = .ok o) :
    (∀ k a, o.attachments[k]? = some a →
      a.path = parent ++ [stem ++ str "-attachments",
        str "attachment-" ++ pad3 (k + 1) ++ str "." ++ extensionFor a.mime_type]) ∧
    (∀ a ∈ o.attachments,
      startsWith (str "data:image/") a.original_data_url = true ∧
      ∃ mp bd, (stripLead (str "data:") a.original_data_url).bind (splitOnce ',') =
          some (mp, bd) ∧
        a.mime_type = List.takeWhile (fun x => x != ';') mp) ∧
    (∀ pr ∈ o.replacements, startsWith (str "data:image/") pr.1 = true) ∧
    o.doc_content =
      List.foldl (fun acc (pr : Str × Str) => replaceAll pr.1 pr.2 acc)
        content o.replacements ∧
    o.html_modified = !o.attachments.isEmpty := by
  unfold extract_attachments_from_html at h
  cases hrun : runSrcs parent stem (collectImgSrcs content)
      { attachments := []
      , modified_html := content
      , attachment_count := 0
      , writes := []
      , replacements := [] } with
  | error e => rw [hrun] at h; exact absurd h (by simp)
  | ok st =>
    rw [hrun] at h
    injection h with h
    subst h
    obtain ⟨h1, h2, h3, h4, h5, h6⟩ :=
      runSrcs_stInv parent stem content _ _ _ hrun (stInv_init parent stem content)
    refine ⟨h3, h4, h5, ?_, rfl⟩
    by_cases he : st.attachments.isEmpty = true
    · have hrep : st.replacements = [] := by
        rw [List.isEmpty_iff] at he
        rw [he] at h2
        simpa using List.length_eq_zero.mp h2
      simp only [he, if_true, hrep]
      rfl
    · have he' : st.attachments.isEmpty = false := by
        cases hx : st.attachments.isEmpty with
        | true => exact absurd hx he
        | false => rfl
      simp only [he', Bool.false_eq_true, if_false]
      exact h6

/-- A document none of whose collected `src` values matches the data-URL
shape is passed through untouched. -/
theorem extract_no_match {parent : List Str} {stem : Str} {content : Str}
    (h : ∀ v ∈ collectImgSrcs content, isMatchedSrc v = false) :
    extract_attachments_from_html parent stem content =
      .ok { attachments := []
          , html_modified := false
          , doc_content := content
          , writes := []
          , replacements := [] } := by
  unfold extract_attachments_from_html
  rw [runSrcs_no_match parent stem _ _ h]
  rfl

/-- A document one of whose matched references fails base64 decoding makes
the whole call fail. -/
theorem extract_err {parent : List Str} {stem : Str} {content : Str}
    (h : ∃ v ∈ collectImgSrcs content, srcFailsDecode v = true) :
    extract_attachments_from_html parent stem content =
      .error .base64DecodeError := by
  unfold extract_attachments_from_html
  rw [runSrcs_err parent stem _ _ h]

/-! ## The tree walker -/

theorem mapExtract_append :
    ∀ xs ys, mapExtract (xs ++ ys) =
      match mapExtract xs with
      | .error e => .error e
      | .ok rs =>
        match mapExtract ys with
        | .error e => .error e
        | .ok rs' => .ok (rs ++ rs') := by
  intro xs ys
  induction xs with
  | nil =>
    simp only [List.nil_append]
    cases mapExtract ys <;> rfl
  | cons t ts ih =>
    show mapExtract (t :: (ts ++ ys)) = _
    rw [mapExtract]
    cases hx : extract_attachments_from_html t.1 (fileStem t.2.1) t.2.2 with
    | error e => rw [mapExtract, hx]
    | ok r =>
      rw [ih, mapExtract, hx]
      cases mapExtract ts with
      | error e => rfl
      | ok rs =>
        cases mapExtract ys with
        | error e => rfl
        | ok rs' => simp

theorem specHtmlFiles_cons (path : List Str) (e : FsEntry) (es : List FsEntry) :
    specHtmlFiles path (e :: es) =
      specHtmlFiles path [e] ++ specHtmlFiles path es := by
  cases e <;> simp [specHtmlFiles]

theorem mapExtract_specCons (path : List Str) (e : FsEntry) (es' : List FsEntry) :
    mapExtract (specHtmlFiles path (e :: es')) =
      match mapExtract (specHtmlFiles path [e]) with
      | .error err => .error err
      | .ok rs =>
        match mapExtract (specHtmlFiles path es') with
        | .error err => .error err
        | .ok rest => .ok (rs ++ rest) := by
  rw [specHtmlFiles_cons path e es']
  exact mapExtract_append _ _

mutual

theorem processEntry_eq_spec (path : List Str) (e : FsEntry) :
    processEntry path e = mapExtract (specHtmlFiles path [e]) := by
  cases e with
  | file name content =>
    by_cases hx : extOf name = some (str "html")
    · rw [processEntry, if_pos hx]
      simp only [specHtmlFiles, if_pos hx, List.append_nil]
      rw [mapExtract]
      cases extract_attachments_from_html path (fileStem name) content with
      | error e => rfl
      | ok r => rfl
    · rw [processEntry, if_neg hx]
      simp only [specHtmlFiles, if_neg hx, List.nil_append]
      rfl
  | dir name entries =>
    by_cases hx : endsWith (str "-attachments") name = true
    · rw [processEntry, if_pos hx]
      simp only [specHtmlFiles, if_pos hx, List.nil_append]
      rfl
    · rw [processEntry, if_neg hx]
      simp only [specHtmlFiles, if_neg hx, List.append_nil]
      exact walk_eq_spec (path ++ [name]) entries

theorem walk_eq_spec (path : List Str) (es : List FsEntry) :
    extract_attachments_recursive path es =
      mapExtract (specHtmlFiles path es) := by
  cases es with
  | nil =>
    rw [extract_attachments_recursive]
    simp only [specHtmlFiles]
    rfl
  | cons e es' =>
    rw [extract_attachments_recursive, mapExtract_specCons path e es',
      processEntry_eq_spec path e, walk_eq_spec path es']

end

theorem walk_skips_attachments_dir {name : Str} (path : List Str)
    (entries rest : List FsEntry)
    (h : endsWith (str "-attachments") name = true) :
    extract_attachments_recursive path (.dir name entries :: rest) =
      extract_attachments_recursive path rest := by
  rw [extract_attachments_recursive]
  rw [show processEntry path (.dir name entries) = .ok [] from by
    rw [processEntry, if_pos h]]
  cases hr : extract_attachments_recursive path rest with
  | error e => rfl
  | ok rs => simp

/-! ## Evolution of the document text through the extraction loop -/

theorem withSlots_map_fst :
    ∀ (parts : List (Str × Str)) (ws : List Str), parts.length = ws.length →
      (withSlots parts ws).map Prod.fst = parts.map Prod.fst := by
  intro parts
  induction parts with
  | nil => intro ws _; simp [withSlots]
  | cons p ps ih =>
    intro ws hlen
    cases ws with
    | nil => simp at hlen
    | cons w ws' =>
      simp only [withSlots, List.zipWith_cons_cons, List.map_cons]
      have h2 := ih ws' (by simpa using hlen)
      simp only [withSlots] at h2
      rw [h2]

theorem withSlots_map (f : Str → Str) :
    ∀ (parts : List (Str × Str)) (ws : List Str),
      (withSlots parts ws).map (fun p => (p.1, f p.2)) =
        withSlots parts (ws.map f) := by
  intro parts
  induction parts with
  | nil => intro ws; simp [withSlots]
  | cons p ps ih =>
    intro ws
    cases ws with
    | nil => simp [withSlots]
    | cons w ws' =>
      simp only [withSlots, List.zipWith_cons_cons, List.map_cons] at ih ⊢
      rw [ih ws']

theorem withSlots_self :
    ∀ parts : List (Str × Str), withSlots parts (parts.map Prod.snd) = parts := by
  intro parts
  induction parts with
  | nil => rfl
  | cons p ps ih =>
    simp only [withSlots, List.map_cons, List.zipWith_cons_cons] at ih ⊢
    rw [ih]

theorem forall₂_right_mem {α β : Type} {R : α → β → Prop} :
    ∀ {as : List α} {bs : List β}, List.Forall₂ R as bs →
      ∀ b ∈ bs, ∃ a ∈ as, R a b := by
  intro as bs h
  induction h with
  | nil => intro b hb; simp at hb
  | cons hrel _ ih =>
    intro b hb
    rcases List.mem_cons.mp hb with rfl | hb'
    · exact ⟨_, by simp, hrel⟩
    · obtain ⟨a, ha, har⟩ := ih b hb'
      exact ⟨a, by simp [ha], har⟩

theorem SlotOk_tail_unmatched {stem v : Str} {vs : List Str} {o c : Str}
    (hm : isMatchedSrc v = false) (h : SlotOk stem (v :: vs) o c) :
    SlotOk stem vs o c := by
  rcases h with ⟨hc, hstat⟩ | h
  · refine Or.inl ⟨hc, ?_⟩
    rcases hstat with h1 | h1
    · exact Or.inl h1
    · rcases List.mem_cons.mp h1 with rfl | h2
      · exact Or.inl hm
      · exact Or.inr h2
  · exact Or.inr h

theorem forall₂_slot_step {stem v : Str} (hstem : '/' ∉ stem)
    (hm : isMatchedSrc v = true) {n₀ : Nat} {m₀ : Str} (vs' : List Str) :
    ∀ (origs ws : List Str),
      (∀ o ∈ origs, v ≠ o → containsSub v o = false) →
      List.Forall₂ (SlotOk stem (v :: vs')) origs ws →
      List.Forall₂ (SlotOk stem vs') origs
        (ws.map (replaceAll v (relPathStr stem n₀ m₀))) := by
  intro origs
  induction origs with
  | nil =>
    intro ws _ hf
    cases hf
    exact List.Forall₂.nil
  | cons o origs' ih =>
    intro ws hsub hf
    cases ws with
    | nil => cases hf
    | cons c ws' =>
      have hrel : SlotOk stem (v :: vs') o c := by
        cases hf with | cons hr _ => exact hr
      have htail : List.Forall₂ (SlotOk stem (v :: vs')) origs' ws' := by
        cases hf with | cons _ ht => exact ht
      simp only [List.map_cons]
      refine List.Forall₂.cons ?_
        (ih ws' (fun u hu hne => hsub u (by simp [hu]) hne) htail)
      rcases hrel with ⟨hc, hstat⟩ | ⟨n, m, hc⟩
      · subst hc
        by_cases hov : c = v
        · subst hov
          rw [replaceAll_self _ (isMatchedSrc_ne_nil hm)]
          exact Or.inr ⟨n₀, m₀, rfl⟩
        · have hnc : containsSub v c = false :=
            hsub c (by simp) (fun h => hov h.symm)
          rw [replaceAll_of_not_contains _ hnc]
          refine Or.inl ⟨rfl, ?_⟩
          rcases hstat with h1 | h1
          · exact Or.inl h1
          · rcases List.mem_cons.mp h1 with h2 | h2
            · exact absurd h2 hov
            · exact Or.inr h2
      · subst hc
        rw [replaceAll_of_not_contains _ (matched_not_in_relPath hstem hm n m)]
        exact Or.inr ⟨n, m, rfl⟩

theorem runSrcs_len_mono (parent : List Str) (stem : Str) :
    ∀ (vs : List Str) (st st' : LoopState),
      runSrcs parent stem vs st = .ok st' →
      st.attachments.length ≤ st'.attachments.length := by
  intro vs
  induction vs with
  | nil =>
    intro st st' h
    simp only [runSrcs] at h
    injection h with h
    exact h ▸ le_rfl
  | cons v vs' ih =>
    intro st st' h
    rw [runSrcs] at h
    cases hps : processSrc parent stem st v with
    | error e => rw [hps] at h; exact absurd h (by simp)
    | ok st₁ =>
      rw [hps] at h
      refine le_trans ?_ (ih st₁ st' h)
      by_cases hm : isMatchedSrc v = true
      · have hs := isMatchedSrc_starts hm
        have hsome : ((stripLead (str "data:") v).bind (splitOnce ',')).isSome = true := by
          simp only [isMatchedSrc, Bool.and_eq_true] at hm
          exact hm.2
        cases hsplit : (stripLead (str "data:") v).bind (splitOnce ',') with
        | none => rw [hsplit] at hsome; simp at hsome
        | some p =>
          obtain ⟨mp, bd⟩ := p
          cases hdec : b64Decode bd with
          | none =>
            rw [processSrc_matched_err parent stem st hs hsplit hdec] at hps
            exact absurd hps (by simp)
          | some bytes =>
            rw [processSrc_matched_ok parent stem st hs hsplit hdec] at hps
            injection hps with hps
            rw [← hps]
            simp
      · have hm' : isMatchedSrc v = false := by
          cases hx : isMatchedSrc v with
          | true => exact absurd hx hm
          | false => rfl
        rw [processSrc_skip parent stem st hm'] at hps
        injection hps with hps
        rw [← hps]

theorem runSrcs_matched_grows (parent : List Str) (stem : Str) :
    ∀ (vs : List Str) (st st' : LoopState),
      (∃ v ∈ vs, isMatchedSrc v = true) →
      runSrcs parent stem vs st = .ok st' →
      st.attachments.length < st'.attachments.length := by
  intro vs
  induction vs with
  | nil => intro st st' h _; simp at h
  | cons v₀ vs' ih =>
    intro st st' hex h
    rw [runSrcs] at h
    obtain ⟨v, hv, hvm⟩ := hex
    by_cases hm : isMatchedSrc v₀ = true
    · have hs := isMatchedSrc_starts hm
      have hsome : ((stripLead (str "data:") v₀).bind (splitOnce ',')).isSome = true := by
        simp only [isMatchedSrc, Bool.and_eq_true] at hm
        exact hm.2
      cases hsplit : (stripLead (str "data:") v₀).bind (splitOnce ',') with
      | none => rw [hsplit] at hsome; simp at hsome
      | some p =>
        obtain ⟨mp, bd⟩ := p
        cases hdec : b64Decode bd with
        | none =>
          rw [processSrc_matched_err parent stem st hs hsplit hdec] at h
          exact absurd h (by simp)
        | some bytes =>
          rw [processSrc_matched_ok parent stem st hs hsplit hdec] at h
          have := runSrcs_len_mono parent stem vs' _ st' h
          simp only [List.length_append, List.length_cons, List.length_nil] at this
          omega
    · have hm' : isMatchedSrc v₀ = false := by
        cases hx : isMatchedSrc v₀ with
        | true => exact absurd hx hm
        | false => rfl
      rw [processSrc_skip parent stem st hm'] at h
      rcases List.mem_cons.mp hv with rfl | hv'
      · exact absurd hvm (by simp [hm'])
      · exact ih st st' ⟨v, hv', hvm⟩ h

theorem runSrcs_evolve
    (parent : List Str) (stem : Str) (parts : List (Str × Str)) (last : Str)
    (hstem : '/' ∉ stem)
    (hquote : ∀ v ∈ parts.map Prod.snd, '"' ∉ v)
    (hchunk : ∀ v ∈ parts.map Prod.snd, isMatchedSrc v = true →
      (∀ ch ∈ parts.map Prod.fst, containsSub v (ch ++ imgMarkerHead) = false) ∧
      containsSub v last = false)
    (hpair : ∀ v w, v ∈ parts.map Prod.snd → w ∈ parts.map Prod.snd →
      isMatchedSrc v = true → v ≠ w → containsSub v w = false) :
    ∀ (vs : List Str) (st st' : LoopState) (ws : List Str),
      (∀ v ∈ vs, v ∈ parts.map Prod.snd) →
      st.modified_html = renderParts (withSlots parts ws) last →
      List.Forall₂ (SlotOk stem vs) (parts.map Prod.snd) ws →
      runSrcs parent stem vs st = .ok st' →
      ∃ ws', st'.modified_html = renderParts (withSlots parts ws') last ∧
        List.Forall₂ (SlotOk stem ([] : List Str)) (parts.map Prod.snd) ws' := by
  intro vs
  induction vs with
  | nil =>
    intro st st' ws _ hst hf h
    simp only [runSrcs] at h
    injection h with h
    subst h
    exact ⟨ws, hst, hf⟩
  | cons v vs' ih =>
    intro st st' ws hsub hst hf h
    rw [runSrcs] at h
    have hvmem : v ∈ parts.map Prod.snd := hsub v (by simp)
    by_cases hm : isMatchedSrc v = true
    · have hs := isMatchedSrc_starts hm
      have hsome : ((stripLead (str "data:") v).bind (splitOnce ',')).isSome = true := by
        simp only [isMatchedSrc, Bool.and_eq_true] at hm
        exact hm.2
      cases hsplit : (stripLead (str "data:") v).bind (splitOnce ',') with
      | none => rw [hsplit] at hsome; simp at hsome
      | some p =>
        obtain ⟨mp, bd⟩ := p
        cases hdec : b64Decode bd with
        | none =>
          rw [processSrc_matched_err parent stem st hs hsplit hdec] at h
          exact absurd h (by simp)
        | some bytes =>
          rw [processSrc_matched_ok parent stem st hs hsplit hdec] at h
          have hlen : (parts.map Prod.snd).length = ws.length := hf.length_eq
          have hws_len : parts.length = ws.length := by simpa using hlen
          have hqv : '"' ∉ v := hquote v hvmem
          have hchunks : ∀ ch ∈ (withSlots parts ws).map Prod.fst,
              containsSub v (ch ++ imgMarkerHead) = false := by
            intro ch hch
            rw [withSlots_map_fst parts ws hws_len] at hch
            exact (hchunk v hvmem hm).1 ch hch
          have htext : replaceAll v
              (relPathStr stem (st.attachment_count + 1)
                (List.takeWhile (fun x => x != ';') mp)) st.modified_html =
              renderParts (withSlots parts
                (ws.map (replaceAll v
                  (relPathStr stem (st.attachment_count + 1)
                    (List.takeWhile (fun x => x != ';') mp))))) last := by
            rw [hst]
            rw [replaceAll_renderParts
              (relPathStr stem (st.attachment_count + 1)
                (List.takeWhile (fun x => x != ';') mp))
              (isMatchedSrc_ne_nil hm) hqv (withSlots parts ws) last hchunks
              ((hchunk v hvmem hm).2)]
            rw [withSlots_map]
          refine ih _ st' _ (fun u hu => hsub u (by simp [hu])) htext ?_ h
          exact forall₂_slot_step hstem hm vs' (parts.map Prod.snd) ws
            (fun o ho hne => hpair v o hvmem ho hm hne) hf
    · have hm' : isMatchedSrc v = false := by
        cases hx : isMatchedSrc v with
        | true => exact absurd hx hm
        | false => rfl
      rw [processSrc_skip parent stem st hm'] at h
      refine ih st st' ws (fun u hu => hsub u (by simp [hu])) hst ?_ h
      exact List.Forall₂.imp (fun _ _ hab => SlotOk_tail_unmatched hm' hab) hf

theorem partsOk_src_quotes :
    ∀ (parts : List (Str × Str)) (last : Str), partsOk parts last →
      ∀ v ∈ parts.map Prod.snd, '"' ∉ v := by
  intro parts
  induction parts with
  | nil => intro last _ v hv; simp at hv
  | cons p ps ih =>
    intro last h v hv
    obtain ⟨c, w⟩ := p
    obtain ⟨_, h2, h3⟩ := h
    rcases List.mem_cons.mp hv with rfl | hv'
    · exact fun hq => h2 '"' hq rfl
    · exact ih last h3 v hv'

theorem withSlots_map_snd :
    ∀ (parts : List (Str × Str)) (ws : List Str), parts.length = ws.length →
      (withSlots parts ws).map Prod.snd = ws := by
  intro parts
  induction parts with
  | nil =>
    intro ws hlen
    cases ws with
    | nil => rfl
    | cons _ _ => simp at hlen
  | cons p ps ih =>
    intro ws hlen
    cases ws with
    | nil => simp at hlen
    | cons w ws' =>
      simp only [withSlots, List.zipWith_cons_cons, List.map_cons]
      have h2 := ih ws' (by simpa using hlen)
      simp only [withSlots] at h2
      rw [h2]

/-- Core idempotence: re-running the extractor on the rewritten text of a
successful run finds no matches and changes nothing. -/
theorem extract_idempotent_core
    (parent : List Str) (stem : Str) (parts : List (Str × Str)) (last : Str)
    (hpok : partsOk parts last)
    (hstem : '/' ∉ stem) (hstemq : '"' ∉ stem)
    (hchunk : ∀ v ∈ parts.map Prod.snd, isMatchedSrc v = true →
      (∀ ch ∈ parts.map Prod.fst, containsSub v (ch ++ imgMarkerHead) = false) ∧
      containsSub v last = false)
    (hpair : ∀ v w, v ∈ parts.map Prod.snd → w ∈ parts.map Prod.snd →
      isMatchedSrc v = true → v ≠ w → containsSub v w = false)
    {o : ExtractionResult}
    (h : extract_attachments_from_html parent stem (renderParts parts last) = .ok o) :
    extract_attachments_from_html parent stem o.doc_content =
      .ok { attachments := []
          , html_modified := false
          , doc_content := o.doc_content
          , writes := []
          , replacements := [] } := by
  have hquote := partsOk_src_quotes parts last hpok
  have hcollect : collectImgSrcs (renderParts parts last) = parts.map Prod.snd :=
    collect_renderParts parts last hpok
  unfold extract_attachments_from_html at h
  cases hrun : runSrcs parent stem (collectImgSrcs (renderParts parts last))
      { attachments := []
      , modified_html := renderParts parts last
      , attachment_count := 0
      , writes := []
      , replacements := [] } with
  | error e => rw [hrun] at h; exact absurd h (by simp)
  | ok st =>
    rw [hrun] at h
    injection h with h
    subst h
    rw [hcollect] at hrun
    obtain ⟨ws', htext, hf'⟩ := runSrcs_evolve parent stem parts last hstem hquote
      hchunk hpair (parts.map Prod.snd) _ st (parts.map Prod.snd)
      (fun v hv => hv)
      (by
        show renderParts parts last = renderParts (withSlots parts (parts.map Prod.snd)) last
        rw [withSlots_self])
      (List.forall₂_same.mpr (fun a ha => Or.inl ⟨rfl, Or.inr ha⟩))
      hrun
    have hlen₁ : (parts.map Prod.snd).length = ws'.length := hf'.length_eq
    have hws_unmatched : ∀ w ∈ ws', isMatchedSrc w = false := by
      intro w hw
      obtain ⟨oo, _, hrel⟩ := forall₂_right_mem hf' w hw
      rcases hrel with ⟨rfl, hstat⟩ | ⟨n, m, rfl⟩
      · rcases hstat with h1 | h1
        · exact h1
        · simp at h1
      · exact isMatchedSrc_relPath_false hstem n m
    have hws_quotes : ∀ w ∈ ws', ∀ x ∈ w, x ≠ '"' := by
      intro w hw
      obtain ⟨oo, ho, hrel⟩ := forall₂_right_mem hf' w hw
      rcases hrel with ⟨rfl, _⟩ | ⟨n, m, rfl⟩
      · exact fun x hx heq => hquote w ho (heq ▸ hx)
      · exact fun x hx heq => relPath_no_quote hstemq n m (heq ▸ hx)
    by_cases hemp : st.attachments.isEmpty = true
    · -- no attachment was extracted: the text is unchanged, and no source
      -- was matched in the first place
      have hall : ∀ v ∈ parts.map Prod.snd, isMatchedSrc v = false := by
        intro v hv
        cases hx : isMatchedSrc v with
        | false => rfl
        | true =>
          exfalso
          have := runSrcs_matched_grows parent stem (parts.map Prod.snd) _ st
            ⟨v, hv, hx⟩ hrun
          rw [List.isEmpty_iff] at hemp
          simp [hemp] at this
      simp only [hemp, if_true]
      exact extract_no_match (by rw [hcollect]; exact hall)
    · have hemp' : st.attachments.isEmpty = false := by
        cases hx : st.attachments.isEmpty with
        | true => exact absurd hx hemp
        | false => rfl
      simp only [hemp', Bool.false_eq_true, if_false]
      rw [htext]
      have hpok' : partsOk (withSlots parts ws') last :=
        partsOk_withSlots parts last ws' hpok (by simpa using hlen₁.symm) hws_quotes
      have hcollect' : collectImgSrcs (renderParts (withSlots parts ws') last) = ws' := by
        rw [collect_renderParts _ last hpok',
          withSlots_map_snd parts ws' (by simpa using hlen₁)]
      exact extract_no_match (by rw [hcollect']; exact hws_unmatched)

/-! ## Remaining helper lemmas -/

theorem chunkOk_nil (t : Str) : chunkOk [] t := by
  intro c₂ hne hsuf
  exact absurd (List.suffix_nil.mp hsuf) hne

theorem splitOnce_first {sep : Char} (b : Str) :
    ∀ a : Str, sep ∉ a → splitOnce sep (a ++ sep :: b) = some (a, b) := by
  intro a
  induction a with
  | nil => intro _; simp [splitOnce]
  | cons x xs ih =>
    intro h
    have hx : ¬x = sep := fun hc => h (by simp [hc])
    rw [List.cons_append, splitOnce, if_neg hx,
      ih (fun hc => h (List.mem_cons_of_mem x hc))]
    rfl

theorem splitOnChar_no_sep {sep : Char} :
    ∀ b : Str, sep ∉ b → splitOnChar sep b = [b] := by
  intro b
  induction b with
  | nil => intro _; rfl
  | cons c cs ih =>
    intro h
    have hc : ¬c = sep := fun hx => h (by simp [hx])
    rw [splitOnChar, ih (fun hx => h (List.mem_cons_of_mem c hx))]
    simp [hc]

theorem splitOnChar_pair {a b : Str} (ha : '/' ∉ a) (hb : '/' ∉ b) :
    splitOnChar '/' (a ++ '/' :: b) = [a, b] := by
  induction a with
  | nil =>
    rw [List.nil_append, splitOnChar, splitOnChar_no_sep b hb]
    simp
  | cons x xs ih =>
    have hx : ¬x = '/' := fun hc => ha (by simp [hc])
    rw [List.cons_append, splitOnChar,
      ih (fun hc => ha (List.mem_cons_of_mem x hc))]
    simp [hx]

theorem replaceAll_single_occurrence {pat : Str} (rep : Str) (hp : pat ≠ []) :
    ∀ (x : Str) (y : Str),
      (∀ x₂, x₂ ≠ [] → x₂ <:+ x → startsWith pat (x₂ ++ pat ++ y) = false) →
      containsSub pat y = false →
      replaceAll pat rep (x ++ pat ++ y) = x ++ rep ++ y := by
  intro x
  induction x with
  | nil =>
    intro y _ hy
    simp only [List.nil_append]
    rw [replaceAll_head_match rep y hp, replaceAll_of_not_contains rep hy]
  | cons c cs ih =>
    intro y hx hy
    have hhead := hx (c :: cs) (by simp) (List.suffix_refl _)
    have hhead' : startsWith pat (c :: (cs ++ pat ++ y)) = false := by
      have he : (c :: cs) ++ pat ++ y = c :: (cs ++ pat ++ y) := by simp
      rw [← he]
      exact hhead
    have he2 : (c :: cs) ++ pat ++ y = c :: (cs ++ pat ++ y) := by simp
    rw [he2, replaceAll_cons_neg rep hhead',
      ih y (fun x₂ hne hsuf => hx x₂ hne (hsuf.trans (List.suffix_cons c cs))) hy]
    simp

/-! ## The claims -/

/-- C1: evaluation of `extract_attachments_from_html` at the failing
input.  A document with two image elements carrying the identical data-URL
string yields two distinct attachment files (`attachment-001.png`,
`attachment-002.png`, both written), but the global `str::replace` of
line 564 rewrites **both** occurrences to the first file's relative path:
the rewritten text references `attachment-001.png` twice and
`attachment-002.png` never, contradicting the claim that each occurrence
points to its own distinct file. -/
theorem claim_C1 :
    extract_attachments_from_html [] (str "n")
        (str "<img src=\"data:image/png;base64,AAAA\"><img src=\"data:image/png;base64,AAAA\">") =
      .ok { attachments :=
              [{ path := [str "n-attachments", str "attachment-001.png"]
               , original_data_url := str "data:image/png;base64,AAAA"
               , mime_type := str "image/png" },
               { path := [str "n-attachments", str "attachment-002.png"]
               , original_data_url := str "data:image/png;base64,AAAA"
               , mime_type := str "image/png" }]
          , html_modified := true
          , doc_content :=
              str "<img src=\"n-attachments/attachment-001.png\"><img src=\"n-attachments/attachment-001.png\">"
          , writes :=
              [([str "n-attachments", str "attachment-001.png"], [0, 0, 0]),
               ([str "n-attachments", str "attachment-002.png"], [0, 0, 0])]
          , replacements :=
              [(str "data:image/png;base64,AAAA", str "n-attachments/attachment-001.png"),
               (str "data:image/png;base64,AAAA", str "n-attachments/attachment-002.png")] } ∧
    containsSub (str "attachment-002")
      (str "<img src=\"n-attachments/attachment-001.png\"><img src=\"n-attachments/attachment-001.png\">") =
      false := by
  constructor
  · decide
  · decide

/-- C2: whenever some collected `src` value of the document matches the
data-URL shape but its base64 payload is invalid, the call returns the
base64 decode error, and the on-disk document content after the call is
unchanged (the rewrite of line 576 is never reached). -/
theorem claim_C2 (parent : List Str) (stem : Str) (content : Str)
    (h : ∃ v ∈ collectImgSrcs content, srcFailsDecode v = true) :
    extract_attachments_from_html parent stem content =
      .error .base64DecodeError ∧
    docOnDiskAfter content (extract_attachments_from_html parent stem content) =
      content := by
  have he := @extract_err parent stem content h
  exact ⟨he, by rw [he]; rfl⟩

theorem claim_C2_witness :
    extract_attachments_from_html [] (str "n")
        (str "<img src=\"data:image/png;base64,!!!!\">") =
      .error .base64DecodeError ∧
    docOnDiskAfter (str "<img src=\"data:image/png;base64,!!!!\">")
        (extract_attachments_from_html [] (str "n")
          (str "<img src=\"data:image/png;base64,!!!!\">")) =
      str "<img src=\"data:image/png;base64,!!!!\">" :=
  claim_C2 [] (str "n") (str "<img src=\"data:image/png;base64,!!!!\">") (by decide)

/-- C4: a document none of whose collected image `src` values matches the
data-URL shape is passed through untouched: the result has an empty
attachment list, `html_modified = false`, no attachment file is written,
and the on-disk document content is byte-for-byte the input. -/
theorem claim_C4 (parent : List Str) (stem : Str) (content : Str)
    (h : ∀ v ∈ collectImgSrcs content, isMatchedSrc v = false) :
    extract_attachments_from_html parent stem content =
      .ok { attachments := []
          , html_modified := false
          , doc_content := content
          , writes := []
          , replacements := [] } :=
  extract_no_match h

theorem claim_C4_witness :
    extract_attachments_from_html [] (str "n")
        (str "<img src=\"https://example.com/pic.png\">") =
      .ok { attachments := []
          , html_modified := false
          , doc_content := str "<img src=\"https://example.com/pic.png\">"
          , writes := []
          , replacements := [] } :=
  claim_C4 [] (str "n") (str "<img src=\"https://example.com/pic.png\">") (by decide)

/-- C5: in every successful result, the `k`-th recorded attachment
(0-based) is stored at exactly
`<parent>/<stem>-attachments/attachment-<NNN>.<ext>` where `<NNN>` is the
1-based index `k+1` zero-padded to 3 digits and `<ext>` is the extension
resolved from that attachment's own media type — so the sequence is
contiguous from 1 in order of appearance and shared across media types. -/
theorem claim_C5 (parent : List Str) (stem : Str) (content : Str)
    (o : ExtractionResult)
    (h : extract_attachments_from_html parent stem content = .ok o) :
    ∀ k a, o.attachments[k]? = some a →
      a.path = parent ++ [stem ++ str "-attachments",
        str "attachment-" ++ pad3 (k + 1) ++ str "." ++ extensionFor a.mime_type] :=
  (extract_ok_inv h).1

theorem claim_C5_witness :
    ({ path := [str "n-attachments", str "attachment-001.png"]
     , original_data_url := str "data:image/png;base64,AAAA"
     , mime_type := str "image/png" } : ExtractedAttachment).path =
      [] ++ [str "n" ++ str "-attachments",
        str "attachment-" ++ pad3 (0 + 1) ++ str "." ++
          extensionFor (str "image/png")] :=
  claim_C5 [] (str "n") (str "<img src=\"data:image/png;base64,AAAA\">")
    { attachments :=
        [{ path := [str "n-attachments", str "attachment-001.png"]
         , original_data_url := str "data:image/png;base64,AAAA"
         , mime_type := str "image/png" }]
    , html_modified := true
    , doc_content := str "<img src=\"n-attachments/attachment-001.png\">"
    , writes := [([str "n-attachments", str "attachment-001.png"], [0, 0, 0])]
    , replacements :=
        [(str "data:image/png;base64,AAAA", str "n-attachments/attachment-001.png")] }
    (by decide) 0
    { path := [str "n-attachments", str "attachment-001.png"]
    , original_data_url := str "data:image/png;base64,AAAA"
    , mime_type := str "image/png" }
    (by decide)

/-- C6 counterexample: for the reference `data:image/PNG;base64,AAAA` the
recorded `mime_type` is the verbatim token `image/PNG`, which differs from
its lower-cased form `image/png` — the code performs no lower-casing, so
the claim's "lower-cased token form" is false as stated. -/
theorem counterexample_C6 :
    (extract_attachments_from_html [] (str "n")
        (str "<img src=\"data:image/PNG;base64,AAAA\">")).toOption.map
      (fun o => o.attachments.map (fun a => a.mime_type)) =
      some [str "image/PNG"] ∧
    specLowerAscii (str "image/PNG") = str "image/png" ∧
    str "image/PNG" ≠ str "image/png" := by
  refine ⟨by decide, by decide, by decide⟩

/-- C6 (amended): for every recorded attachment, the stored `mime_type` is
the *verbatim* text of the declared media type: the reference starts with
the literal `data:image/`, and the `mime_type` equals the pre-first-`;`
portion of the part of the reference between the `data:` prefix and the
first comma, with no case normalization. -/
theorem claim_C6 (parent : List Str) (stem : Str) (content : Str)
    (o : ExtractionResult)
    (h : extract_attachments_from_html parent stem content = .ok o) :
    ∀ a ∈ o.attachments,
      startsWith (str "data:image/") a.original_data_url = true ∧
      ∃ mp bd,
        (stripLead (str "data:") a.original_data_url).bind (splitOnce ',') =
          some (mp, bd) ∧
        a.mime_type = List.takeWhile (fun x => x != ';') mp :=
  (extract_ok_inv h).2.1

theorem claim_C6_witness :
    startsWith (str "data:image/")
      ({ path := [str "n-attachments", str "attachment-001.bin"]
       , original_data_url := str "data:image/PNG;base64,AAAA"
       , mime_type := str "image/PNG" } : ExtractedAttachment).original_data_url
      = true ∧
    ∃ mp bd,
      (stripLead (str "data:")
          ({ path := [str "n-attachments", str "attachment-001.bin"]
           , original_data_url := str "data:image/PNG;base64,AAAA"
           , mime_type := str "image/PNG" } :
            ExtractedAttachment).original_data_url).bind (splitOnce ',') =
        some (mp, bd) ∧
      ({ path := [str "n-attachments", str "attachment-001.bin"]
       , original_data_url := str "data:image/PNG;base64,AAAA"
       , mime_type := str "image/PNG" } : ExtractedAttachment).mime_type =
        List.takeWhile (fun x => x != ';') mp :=
  claim_C6 [] (str "n") (str "<img src=\"data:image/PNG;base64,AAAA\">")
    { attachments :=
        [{ path := [str "n-attachments", str "attachment-001.bin"]
         , original_data_url := str "data:image/PNG;base64,AAAA"
         , mime_type := str "image/PNG" }]
    , html_modified := true
    , doc_content := str "<img src=\"n-attachments/attachment-001.bin\">"
    , writes := [([str "n-attachments", str "attachment-001.bin"], [0, 0, 0])]
    , replacements :=
        [(str "data:image/PNG;base64,AAAA", str "n-attachments/attachment-001.bin")] }
    (by decide)
    { path := [str "n-attachments", str "attachment-001.bin"]
    , original_data_url := str "data:image/PNG;base64,AAAA"
    , mime_type := str "image/PNG" }
    (by decide)

/-- C9: when the root path does not denote an existing directory (it is
missing, or denotes a regular file), `extract_attachments_from_directory`
returns a normal result with an empty list of per-document results. -/
theorem claim_C9 (rootPath : List Str) (root : Option FsEntry)
    (h : isDirOf root = false) :
    extract_attachments_from_directory rootPath root = .ok [] := by
  cases root with
  | none => rfl
  | some e =>
    cases e with
    | file name content => rfl
    | dir name entries => simp [isDirOf] at h

theorem claim_C9_witness :
    isDirOf none = false ∧
      extract_attachments_from_directory [] none = .ok [] :=
  ⟨by decide, claim_C9 [] none (by decide)⟩

/-- C7: the recursive walk (a) never descends into a subdirectory whose
name ends in `-attachments` — such an entry contributes nothing to the
result, whatever it contains — and (b) equals running the single-document
extractor once on each file with extension exactly `html` in the remaining
tree, in traversal order, appending one result per file. -/
theorem claim_C7 :
    (∀ (path : List Str) (name : Str) (entries rest : List FsEntry),
      endsWith (str "-attachments") name = true →
      extract_attachments_recursive path (.dir name entries :: rest) =
        extract_attachments_recursive path rest) ∧
    (∀ (path : List Str) (es : List FsEntry),
      extract_attachments_recursive path es =
        mapExtract (specHtmlFiles path es)) :=
  ⟨fun path _ entries rest h => walk_skips_attachments_dir path entries rest h,
   fun path es => walk_eq_spec path es⟩

theorem claim_C7_witness :
    extract_attachments_recursive []
        [.dir (str "Note-attachments") [.file (str "leftover.html") (str "x"),
           .file (str "evil.html") (str "y")],
         .file (str "Note.html") (str "hello")] =
      extract_attachments_recursive [] [.file (str "Note.html") (str "hello")] ∧
    extract_attachments_recursive [] [.file (str "Note.html") (str "hello")] =
      mapExtract (specHtmlFiles [] [.file (str "Note.html") (str "hello")]) :=
  ⟨claim_C7.1 [] (str "Note-attachments")
      [.file (str "leftover.html") (str "x"), .file (str "evil.html") (str "y")]
      [.file (str "Note.html") (str "hello")] (by decide),
   claim_C7.2 [] [.file (str "Note.html") (str "hello")]⟩

/-- C10: when the call succeeds, the on-disk text is obtained from the
original text purely by the recorded sequence of `str::replace`
substitutions (no re-serialization of the parsed HTML); every replaced
pattern is a matched data-URL string; and each such substitution preserves
every byte outside the occurrences of the pattern, as witnessed on a text
with a single occurrence. -/
theorem claim_C10 (parent : List Str) (stem : Str) (content : Str)
    (o : ExtractionResult)
    (h : extract_attachments_from_html parent stem content = .ok o) :
    o.doc_content =
      List.foldl (fun acc (pr : Str × Str) => replaceAll pr.1 pr.2 acc)
        content o.replacements ∧
    (∀ pr ∈ o.replacements, startsWith (str "data:image/") pr.1 = true) ∧
    (∀ pr ∈ o.replacements, ∀ x y : Str,
      (∀ x₂, x₂ ≠ [] → x₂ <:+ x → startsWith pr.1 (x₂ ++ pr.1 ++ y) = false) →
      containsSub pr.1 y = false →
      replaceAll pr.1 pr.2 (x ++ pr.1 ++ y) = x ++ pr.2 ++ y) := by
  obtain ⟨_, _, hrep, hfold, _⟩ := extract_ok_inv h
  refine ⟨hfold, hrep, ?_⟩
  intro pr hpr x y hx hy
  have hne : pr.1 ≠ [] := by
    intro hnil
    have h2 := hrep pr hpr
    rw [hnil] at h2
    exact absurd h2 (by decide)
  exact replaceAll_single_occurrence pr.2 hne x y hx hy

theorem claim_C10_witness :
    (str "<img src=\"n-attachments/attachment-001.png\">" : Str) =
      List.foldl (fun acc (pr : Str × Str) => replaceAll pr.1 pr.2 acc)
        (str "<img src=\"data:image/png;base64,AAAA\">")
        [(str "data:image/png;base64,AAAA",
          str "n-attachments/attachment-001.png")] ∧
    (∀ pr ∈ [(str "data:image/png;base64,AAAA",
        str "n-attachments/attachment-001.png")],
      startsWith (str "data:image/") pr.1 = true) ∧
    (∀ pr ∈ [(str "data:image/png;base64,AAAA",
        str "n-attachments/attachment-001.png")], ∀ x y : Str,
      (∀ x₂, x₂ ≠ [] → x₂ <:+ x → startsWith pr.1 (x₂ ++ pr.1 ++ y) = false) →
      containsSub pr.1 y = false →
      replaceAll pr.1 pr.2 (x ++ pr.1 ++ y) = x ++ pr.2 ++ y) :=
  claim_C10 [] (str "n") (str "<img src=\"data:image/png;base64,AAAA\">")
    { attachments :=
        [{ path := [str "n-attachments", str "attachment-001.png"]
         , original_data_url := str "data:image/png;base64,AAAA"
         , mime_type := str "image/png" }]
    , html_modified := true
    , doc_content := str "<img src=\"n-attachments/attachment-001.png\">"
    , writes := [([str "n-attachments", str "attachment-001.png"], [0, 0, 0])]
    , replacements :=
        [(str "data:image/png;base64,AAAA",
          str "n-attachments/attachment-001.png")] }
    (by decide)

/-- C8: round-trip.  For a document whose single collected reference is
`data:image/png;base64,<p>` with a decodable payload `p`, the successful
call writes exactly one attachment file whose bytes are the base64
decoding of `p`, rewrites the document by replacing the data URL with the
relative path `<stem>-attachments/attachment-001.png`, and that relative
path, resolved against the document's own directory, denotes exactly the
written file. -/
theorem claim_C8 (parent : List Str) (stem : Str) (content p : Str)
    (bytes : List Nat)
    (hstem : '/' ∉ stem)
    (hcollect : collectImgSrcs content = [str "data:image/png;base64," ++ p])
    (hdec : b64Decode p = some bytes) :
    extract_attachments_from_html parent stem content = .ok
      { attachments :=
          [{ path := parent ++ [stem ++ str "-attachments",
               str "attachment-" ++ pad3 1 ++ str "." ++
                 extensionFor (str "image/png")]
           , original_data_url := str "data:image/png;base64," ++ p
           , mime_type := str "image/png" }]
      , html_modified := true
      , doc_content := replaceAll (str "data:image/png;base64," ++ p)
          (relPathStr stem 1 (str "image/png")) content
      , writes :=
          [(parent ++ [stem ++ str "-attachments",
             str "attachment-" ++ pad3 1 ++ str "." ++
               extensionFor (str "image/png")], bytes)]
      , replacements :=
          [(str "data:image/png;base64," ++ p,
            relPathStr stem 1 (str "image/png"))] } ∧
    resolveRelative parent (relPathStr stem 1 (str "image/png")) =
      parent ++ [stem ++ str "-attachments",
        str "attachment-" ++ pad3 1 ++ str "." ++
          extensionFor (str "image/png")] := by
  constructor
  · have hs : startsWith (str "data:image/")
        (str "data:image/png;base64," ++ p) = true := by
      rw [show str "data:image/png;base64," ++ p =
        str "data:image/" ++ (str "png;base64," ++ p) from by
          rw [show str "data:image/png;base64," =
            str "data:image/" ++ str "png;base64," from rfl]
          simp]
      exact startsWith_append _ _
    have hsl : stripLead (str "data:") (str "data:image/png;base64," ++ p) =
        some (str "image/png;base64," ++ p) := by
      rw [show str "data:image/png;base64," ++ p =
        str "data:" ++ (str "image/png;base64," ++ p) from by
          rw [show str "data:image/png;base64," =
            str "data:" ++ str "image/png;base64," from rfl]
          simp]
      unfold stripLead
      rw [if_pos (startsWith_append _ _), List.drop_left]
    have hsplit : (stripLead (str "data:")
        (str "data:image/png;base64," ++ p)).bind (splitOnce ',') =
        some (str "image/png;base64", p) := by
      rw [hsl]
      show splitOnce ',' (str "image/png;base64," ++ p) = _
      rw [show str "image/png;base64," ++ p =
        str "image/png;base64" ++ ',' :: p from by
          rw [show str "image/png;base64," =
            str "image/png;base64" ++ [','] from rfl]
          simp]
      exact splitOnce_first p _ (by decide)
    have hrun : runSrcs parent stem [str "data:image/png;base64," ++ p]
        { attachments := []
        , modified_html := content
        , attachment_count := 0
        , writes := []
        , replacements := [] } = .ok
        { attachments :=
            [{ path := parent ++ [stem ++ str "-attachments",
                 str "attachment-" ++ pad3 1 ++ str "." ++
                   extensionFor (str "image/png")]
             , original_data_url := str "data:image/png;base64," ++ p
             , mime_type := str "image/png" }]
        , modified_html := replaceAll (str "data:image/png;base64," ++ p)
            (relPathStr stem 1 (str "image/png")) content
        , attachment_count := 1
        , writes :=
            [(parent ++ [stem ++ str "-attachments",
               str "attachment-" ++ pad3 1 ++ str "." ++
                 extensionFor (str "image/png")], bytes)]
        , replacements :=
            [(str "data:image/png;base64," ++ p,
              relPathStr stem 1 (str "image/png"))] } := by
      rw [runSrcs, processSrc_matched_ok parent stem _ hs hsplit hdec]
      have hmt : List.takeWhile (fun x => x != ';') (str "image/png;base64") =
          str "image/png" := by decide
      simp only [hmt]
      rfl
    unfold extract_attachments_from_html
    rw [hcollect, hrun]
    rfl
  · rw [relPath_decomp]
    unfold resolveRelative
    rw [splitOnChar_pair (relPath_front_no_slash hstem)
      (relPath_filename_no_slash 1 (str "image/png"))]

theorem claim_C8_witness :
    extract_attachments_from_html [] (str "n")
        (str "<img src=\"data:image/png;base64,AAAA\">") = .ok
      { attachments :=
          [{ path := [] ++ [str "n" ++ str "-attachments",
               str "attachment-" ++ pad3 1 ++ str "." ++
                 extensionFor (str "image/png")]
           , original_data_url := str "data:image/png;base64," ++ str "AAAA"
           , mime_type := str "image/png" }]
      , html_modified := true
      , doc_content := replaceAll (str "data:image/png;base64," ++ str "AAAA")
          (relPathStr (str "n") 1 (str "image/png"))
          (str "<img src=\"data:image/png;base64,AAAA\">")
      , writes :=
          [([] ++ [str "n" ++ str "-attachments",
             str "attachment-" ++ pad3 1 ++ str "." ++
               extensionFor (str "image/png")], [0, 0, 0])]
      , replacements :=
          [(str "data:image/png;base64," ++ str "AAAA",
            relPathStr (str "n") 1 (str "image/png"))] } ∧
    resolveRelative [] (relPathStr (str "n") 1 (str "image/png")) =
      [] ++ [str "n" ++ str "-attachments",
        str "attachment-" ++ pad3 1 ++ str "." ++
          extensionFor (str "image/png")] :=
  claim_C8 [] (str "n") (str "<img src=\"data:image/png;base64,AAAA\">")
    (str "AAAA") [0, 0, 0] (by decide) (by decide) (by decide)

/-- C3: idempotence.  For every canonical, well-formed document (the
chunks contain no spurious `img` markers, no `src` value contains a double
quote, no matched data URL occurs inside a chunk, the final chunk, or
another distinct `src` value, and the stem is free of `/` and `"`), after
a successful first run, a second run of `extract_attachments_from_html`
on the rewritten text finds zero matches: it extracts no attachments,
writes no files, reports `html_modified = false`, and leaves the document
byte-identical. -/
theorem claim_C3 (parent : List Str) (stem : Str)
    (parts : List (Str × Str)) (last : Str) (o : ExtractionResult)
    (hpok : partsOk parts last)
    (hstem : '/' ∉ stem) (hstemq : '"' ∉ stem)
    (hchunk : ∀ v ∈ parts.map Prod.snd, isMatchedSrc v = true →
      (∀ ch ∈ parts.map Prod.fst, containsSub v (ch ++ imgMarkerHead) = false) ∧
      containsSub v last = false)
    (hpair : ∀ v w, v ∈ parts.map Prod.snd → w ∈ parts.map Prod.snd →
      isMatchedSrc v = true → v ≠ w → containsSub v w = false)
    (h : extract_attachments_from_html parent stem (renderParts parts last) =
      .ok o) :
    extract_attachments_from_html parent stem o.doc_content =
      .ok { attachments := []
          , html_modified := false
          , doc_content := o.doc_content
          , writes := []
          , replacements := [] } :=
  extract_idempotent_core parent stem parts last hpok hstem hstemq hchunk hpair h

theorem claim_C3_witness :
    extract_attachments_from_html [] (str "n")
        (str "<img src=\"n-attachments/attachment-001.png\"") =
      .ok { attachments := []
          , html_modified := false
          , doc_content := str "<img src=\"n-attachments/attachment-001.png\""
          , writes := []
          , replacements := [] } :=
  claim_C3 [] (str "n") [([], str "data:image/png;base64,AAAA")] []
    { attachments :=
        [{ path := [str "n-attachments", str "attachment-001.png"]
         , original_data_url := str "data:image/png;base64,AAAA"
         , mime_type := str "image/png" }]
    , html_modified := true
    , doc_content := str "<img src=\"n-attachments/attachment-001.png\""
    , writes := [([str "n-attachments", str "attachment-001.png"], [0, 0, 0])]
    , replacements :=
        [(str "data:image/png;base64,AAAA",
          str "n-attachments/attachment-001.png")] }
    ⟨chunkOk_nil _, by decide, chunkOk_nil _⟩
    (by decide) (by decide) (by decide)
    (by
      intro v w hv hw _ hne
      simp only [List.map_cons, List.map_nil, List.mem_singleton] at hv hw
      subst hv
      subst hw
      exact absurd rfl hne)
    (by decide)
